import Mathlib

/-
Verification of the Prycing numerical pricing core.

Shallow embedding of:
  * `src/options/utils.py`  — `gauss_first_formula`, the `Tree` lattice store;
  * `src/options/binom.py`  — `binom_option`, the binomial lattice engine;
  * `src/options/lsm.py`    — `lsm`, `add_cash_flows`, `npv` (Longstaff–Schwartz).

Python integers are modelled as `Int`; Python lists as `List`; Python float
arithmetic as exact real (`ℝ`) or, for the polymorphic algorithmic core, as an
arbitrary `LinearOrderedField`.  Python exceptions are modelled with
`Except String` (the string is the message of the exception raised;
out-of-range list accesses raise with the message "IndexError").  Python list
indexing wraps negative indices, which `pyGet` / `pySet` reproduce.
-/

set_option maxHeartbeats 1600000

namespace Prycing

/-! ### Definitions: `src/options/utils.py` -/

/-- Embedding of `gauss_first_formula(n)` from `src/options/utils.py`:
`n * (n + 1) // 2`.  Lean `Int` division `/` rounds toward minus infinity for
a positive divisor, exactly like Python `//`. -/
def gauss_first_formula (n : Int) : Int := n * (n + 1) / 2

/-- Nat-level triangular numbers, used to reason about `gauss_first_formula`. -/
def tri : Nat → Nat
  | 0 => 0
  | n + 1 => tri n + (n + 1)

/-- The flat offset of node `(ℓ, j)` in the store. -/
def flatIdx (ℓ j : Nat) : Nat := tri ℓ + j

/-- Python list read `l[i]`: a negative index wraps once from the end;
an index out of the valid range raises `IndexError` (here: `none`). -/
def pyGet {α : Type} (l : List α) (i : Int) : Option α :=
  if 0 ≤ i then l.get? i.toNat
  else if -i ≤ (l.length : Int) then l.get? (l.length - (-i).toNat) else none

/-- Python list write `l[i] = v`, with the same index semantics as `pyGet`. -/
def pySet {α : Type} (l : List α) (i : Int) (v : α) : Option (List α) :=
  if 0 ≤ i then
    if i < (l.length : Int) then some (l.set i.toNat v) else none
  else if -i ≤ (l.length : Int) then
    some (l.set (l.length - (-i).toNat) v)
  else none

/-- Python slice `l[a:b]` for nonnegative bounds (clamped, empty if `b ≤ a`). -/
def pySlice {α : Type} (l : List α) (a b : Nat) : List α := (l.take b).drop a

/-- Embedding of the `Tree` class of `src/options/utils.py`: a height and the
flat node buffer `_nodes`. -/
structure Tree (α : Type) where
  height : Int
  nodes : List α

namespace Tree

/-- Embedding of `Tree.__init__`: fails when `height < 0`, otherwise
allocates `[value] * gauss_first_formula(height)`. -/
def init {α : Type} (height : Int) (value : α) : Except String (Tree α) :=
  if height < 0 then .error "height should be nonnegative"
  else .ok ⟨height, List.replicate (gauss_first_formula height).toNat value⟩

/-- Embedding of `Tree.get_level`. -/
def get_level {α : Type} (t : Tree α) (level : Int) : Except String (List α) :=
  if level < 0 then .error "level should be nonnegative"
  else
    let last_node := gauss_first_formula level
    if last_node > (t.nodes.length : Int) then .error "tree lower than given level"
    else .ok (pySlice t.nodes (gauss_first_formula (level - 1)).toNat last_node.toNat)

/-- Embedding of `Tree.get_node`. -/
def get_node {α : Type} (t : Tree α) (level element : Int) : Except String α :=
  if element > level then .error "element out of bounds"
  else
    match pyGet t.nodes (gauss_first_formula level + element) with
    | some v => .ok v
    | none => .error "IndexError"

/-- Embedding of `Tree.set_node`. -/
def set_node {α : Type} (t : Tree α) (level element : Int) (value : α) :
    Except String (Tree α) :=
  if element > level then .error "element out of bounds"
  else
    match pySet t.nodes (gauss_first_formula level + element) value with
    | some ns => .ok ⟨t.height, ns⟩
    | none => .error "IndexError"

/-- Python `range(a, b)` over `Int`. -/
def intRange (a b : Int) : List Int :=
  if a < b then (List.range (b - a).toNat).map (fun k => a + (k : Int)) else []

/-- Embedding of `Tree.__repr__`: one `"\n"`-prefixed line per
`i in range(0, height + 1)`, each listing `get_level(i)` in reversed order,
joined with `", "`; `toStr` stands for Python `str`. -/
def render {α : Type} (t : Tree α) (toStr : α → String) : Except String String :=
  (intRange 0 (t.height + 1)).foldlM
    (fun acc i => do
      let lvl ← t.get_level i
      pure (acc ++ "\n" ++ String.intercalate ", " (lvl.reverse.map toStr)))
    ""

/-- Well-formed trees: the states reachable through `Tree.init` and
`Tree.set_node` (both preserve the buffer length `gauss_first_formula height`). -/
def WF {α : Type} (t : Tree α) : Prop :=
  0 ≤ t.height ∧ t.nodes.length = tri t.height.toNat

end Tree

/-- The height-2 rendering scenario of the spec: `set(0,0,1)`, `set(1,0,2)`,
`set(1,1,3)` on a height-2 tree, then `repr`. -/
def renderScenario : Except String String := do
  let t ← Tree.init 2 (0 : Int)
  let t ← t.set_node 0 0 1
  let t ← t.set_node 1 0 2
  let t ← t.set_node 1 1 3
  t.render toString

/-! ### Definitions: `npv` from `src/options/lsm.py` -/

/-- Elementwise addition of two equal-length vectors (numpy `+=`). -/
def addVec {α : Type} [Add α] (a b : List α) : List α := List.zipWith (· + ·) a b

/-- Arithmetic mean of a list of reals (numpy `mean`). -/
noncomputable def vmean (xs : List ℝ) : ℝ := xs.sum / xs.length

/-- Sample variance with `ddof = 1` (numpy/scipy default inside `sem`). -/
noncomputable def sampleVariance (xs : List ℝ) : ℝ :=
  (xs.map (fun x => (x - vmean xs) ^ 2)).sum / ((xs.length : ℝ) - 1)

/-- Embedding of `scipy.stats.sem` (third-party, modelled from its documented
behaviour, which the spec restates): sample standard deviation (`ddof = 1`)
divided by the square root of the sample size. -/
noncomputable def sem (xs : List ℝ) : ℝ :=
  Real.sqrt (sampleVariance xs) / Real.sqrt xs.length

/-- The `discounted_cash_flows` accumulation loop of `npv` from
`src/options/lsm.py`: starts from a zero vector shaped like the first stored
vector, and for each stored vector adds it scaled by the running discount
factor, which starts at `exp(-discount_rate)` and is multiplied by
`exp(-discount_rate)` after every vector. -/
noncomputable def npvTotals (cash_flow_matrix : List (List ℝ))
    (discount_rate : ℝ) : List ℝ :=
  (cash_flow_matrix.foldl
    (fun (acc : List ℝ × ℝ) cash_flows =>
      (addVec acc.1 (cash_flows.map (fun x => x * acc.2)),
        acc.2 * Real.exp (-discount_rate)))
    (List.replicate (cash_flow_matrix.headD []).length (0 : ℝ),
      Real.exp (-discount_rate))).1

/-- Embedding of `npv(cash_flow_matrix, discount_rate)` from
`src/options/lsm.py`: the discounted per-path totals summed and divided by
`np.shape(cash_flow_matrix)[1]` (the path count), paired with
`stats.sem` of the totals. -/
noncomputable def npv (cash_flow_matrix : List (List ℝ)) (discount_rate : ℝ) :
    ℝ × ℝ :=
  ((npvTotals cash_flow_matrix discount_rate).sum /
      ((cash_flow_matrix.headD []).length : ℝ),
    sem (npvTotals cash_flow_matrix discount_rate))

/-- Spec-side description of the discounted per-path totals: path `p`'s total
is the sum, over the stored vectors `k = 0, 1, …`, of entry `p` of vector `k`
times `exp(-rate)` raised to the `(k+1)`-st power (the vector nearest the
valuation date gets one step-factor, the next two, …). -/
noncomputable def specDiscountedTotals (cfm : List (List ℝ)) (rate : ℝ) (n : Nat) :
    List ℝ :=
  (List.range n).map (fun p =>
    ∑ k ∈ Finset.range cfm.length,
      ((cfm.getD k []).getD p 0) * Real.exp (-rate) ^ (k + 1))

/-! ### Definitions: `src/options/binom.py` -/

/-- The `Option` namedtuple of `src/options/binom.py` (renamed `BinOption`
here because `Option` is taken): spot `S`, strike `K`, payoff `price_fun`. -/
structure BinOption where
  S : ℝ
  K : ℝ
  price_fun : ℝ → ℝ → ℝ

/-- A write loop over one tree level: for each column `j` in `js` (in order),
compute a value from the current tree with `R` and `set_node(L, j, ·)`.
All three loops of `binom_option` are instances. -/
def writeLoop {α : Type} (L : Nat) (R : Tree α → Nat → Except String α)
    (js : List Nat) (t : Tree α) : Except String (Tree α) :=
  js.foldlM
    (fun t j => do
      let x ← R t j
      t.set_node (L : Int) (j : Int) x)
    t

/-- One level `i ≥ 1` of the forward pass of `binom_option`:
`set_node(i, 0, get_node(i-1, 0) * u)`, then
`set_node(i, j, get_node(i-1, j-1) * d)` for `j = 1 .. i`. -/
noncomputable def forwardLevel (u d : ℝ) (t : Tree ℝ) (i : Nat) :
    Except String (Tree ℝ) := do
  let top ← t.get_node ((i : Int) - 1) 0
  let t1 ← t.set_node (i : Int) 0 (top * u)
  writeLoop i
    (fun t' j => do
      let p ← t'.get_node ((i : Int) - 1) ((j : Int) - 1)
      pure (p * d))
    (List.range' 1 i) t1

/-- One level `i` of the backward induction of `binom_option`.  Python
iterates `j in range(1, i + 2)` and writes column `j - 1`; here the loop
variable is `jm := j - 1 in range(0, i + 1)`, the same writes in the same
order: `set_node(i, jm, (1/cc_rate)·(q_u·get(i+1, jm) + q_d·get(i+1, jm+1)))`. -/
noncomputable def backwardLevel (cc_rate q_u q_d : ℝ) (t : Tree ℝ) (i : Nat) :
    Except String (Tree ℝ) :=
  writeLoop i
    (fun t' jm => do
      let a ← t'.get_node ((i : Int) + 1) (jm : Int)
      let b ← t'.get_node ((i : Int) + 1) ((jm : Int) + 1)
      pure ((1 / cc_rate) * (q_u * a + q_d * b)))
    (List.range (i + 1)) t

/-- The tree-building body of `binom_option`, with the market constants
`u`, `d`, `cc_rate`, `q_u`, `q_d` already computed: forward price pass,
terminal payoff layer at level `steps − 1`, backward induction down to the
root, returning the two lattices.  The `print` calls of the Python code are
side effects with no bearing on the result and are dropped.  The Python
`Tree` default fill `float('NaN')` is modelled as `0`; no claim reads an
unwritten cell.  For `steps ≥ 1` the Nat subtractions below agree with the
Python expressions; for `steps = 0` the function fails earlier, at
`set_node(0, 0, S)` on the empty buffer, exactly as Python raises there. -/
noncomputable def binomBuild (S K : ℝ) (f : ℝ → ℝ → ℝ)
    (u d cc_rate q_u q_d : ℝ) (steps : Nat) :
    Except String (Tree ℝ × Tree ℝ) := do
  let st0 ← Tree.init (steps : Int) (0 : ℝ)
  let st1 ← st0.set_node 0 0 S
  let st ← (List.range' 1 (steps - 1)).foldlM (forwardLevel u d) st1
  let last_level ← st.get_level (steps : Int)
  let vt0 ← Tree.init (steps : Int) (0 : ℝ)
  let vt1 ← writeLoop (steps - 1)
    (fun _ i => do
      let p ← st.get_node ((steps : Int) - 1) (i : Int)
      pure (f p K))
    (List.range last_level.length) vt0
  let vt ← ((List.range (steps - 1)).reverse).foldlM
    (backwardLevel cc_rate q_u q_d) vt1
  return (st, vt)

/-- Embedding of `binom_option` from `src/options/binom.py`: computes
`dt = N / steps`, `u = exp(σ·√dt)`, `d = 1/u`, `cc_rate = exp(r·dt)`,
`q_u = (exp((r − q)·dt) − d)/(u − d)`, `q_d = 1 − q_u`, then builds the two
lattices. -/
noncomputable def binom_option (option : BinOption)
    (discount_rate dividend_yield sigma : ℝ) (N steps : Nat) :
    Except String (Tree ℝ × Tree ℝ) :=
  let dt : ℝ := (N : ℝ) / (steps : ℝ)
  let u := Real.exp (sigma * Real.sqrt dt)
  let d := 1 / u
  let cc_rate := Real.exp (discount_rate * dt)
  let q_u := (Real.exp ((discount_rate - dividend_yield) * dt) - d) / (u - d)
  let q_d := 1 - q_u
  binomBuild option.S option.K option.price_fun u d cc_rate q_u q_d steps

/-- The recombining price lattice the claim describes: `price(0,0) = S`,
`price(i,0) = price(i−1,0)·u` (all-up path), and
`price(i,j) = price(i−1,j−1)·d` for `j ≥ 1`. -/
noncomputable def stockPrice (S u d : ℝ) : Nat → Nat → ℝ
  | 0, _ => S
  | i + 1, 0 => stockPrice S u d i 0 * u
  | i + 1, j + 1 => stockPrice S u d i j * d

/-- Backward-induction values by distance `g` to the terminal level `T`:
at `g = 0` the terminal payoff `f(price(T,j), K)`; one level down,
`(1/R)·(q_u·(next level, same column) + q_d·(next level, column+1))` —
plain discounted risk-neutral expectation, no early-exercise comparison. -/
noncomputable def valueGap (f : ℝ → ℝ → ℝ) (K cc_rate q_u q_d : ℝ)
    (price : Nat → Nat → ℝ) (T : Nat) : Nat → Nat → ℝ
  | 0, j => f (price T j) K
  | g + 1, j =>
    (1 / cc_rate) * (q_u * valueGap f K cc_rate q_u q_d price T g j +
      q_d * valueGap f K cc_rate q_u q_d price T g (j + 1))

/-- The claim's `value(i, j)` for `i ≤ T`: `valueGap` at distance `T − i`. -/
noncomputable def valueNode (f : ℝ → ℝ → ℝ) (K cc_rate q_u q_d : ℝ)
    (price : Nat → Nat → ℝ) (T i j : Nat) : ℝ :=
  valueGap f K cc_rate q_u q_d price T (T - i) j

/-- Proof-side invariant for the lattice constructions: the tree has height
`steps`, the full buffer, and the levels of `lo ≤ ℓ ≤ hi` hold `g ℓ j`. -/
def bandPopulated (steps : Nat) (g : Nat → Nat → ℝ) (lo hi : Nat) (t : Tree ℝ) :
    Prop :=
  t.height = (steps : Int) ∧ t.nodes.length = tri steps ∧
    ∀ ℓ j : Nat, lo ≤ ℓ → ℓ ≤ hi → j ≤ ℓ →
      t.nodes.get? (flatIdx ℓ j) = some (g ℓ j)

/-! ### Definitions: `lsm` and `add_cash_flows` from `src/options/lsm.py` -/

/-- The object returned by `regress_fun` (a statsmodels OLS fit), reduced to
the one attribute the algorithm reads: `fittedvalues`. -/
structure OlsFit (α : Type) where
  fittedvalues : List α

/-- numpy boolean-mask selection `xs[mask]` (the lengths agree in every use
of the algorithm; `zip` truncates otherwise). -/
def selectMask {α : Type} (xs : List α) (mask : List Bool) : List α :=
  ((xs.zip mask).filter (fun p => p.2)).map (fun p => p.1)

/-- numpy `np.where(mask)[0]`: the indices of the `true` entries, in
ascending order (defined by recursion on the mask). -/
def maskIdx : List Bool → List Nat
  | [] => []
  | b :: rest =>
    if b then 0 :: (maskIdx rest).map (· + 1) else (maskIdx rest).map (· + 1)

/-- numpy fancy-index assignment `base[idxs] = src[idxs]`. -/
def scatterFrom {α : Type} (base src : List α) (idxs : List Nat) : List α :=
  (base.enum).map (fun p => if p.1 ∈ idxs then src.getD p.1 p.2 else p.2)

/-- numpy boolean-mask assignment `vec[stopped] = 0.0`. -/
def zeroMask {α : Type} [Zero α] (vec : List α) (stopped : List Bool) : List α :=
  (vec.zip stopped).map (fun p => if p.2 then 0 else p.1)

/-- Embedding of `add_cash_flows(cash_flows, early_cash_flows)` from
`src/options/lsm.py`: prepends the new early-exercise vector, zeroes every
stored vector at the stopped paths (`early_cash_flows > 0`), and returns the
new collection together with the per-path running sum
(`np.copy(early_cash_flows)` plus each zeroed vector in turn). -/
def add_cash_flows {α : Type} [LinearOrderedField α]
    (cash_flows : List (List α)) (early_cash_flows : List α) :
    List (List α) × List α :=
  let is_stopped := early_cash_flows.map (fun x => decide ((0 : α) < x))
  let zeroed := cash_flows.map (fun vec => zeroMask vec is_stopped)
  (early_cash_flows :: zeroed,
    zeroed.foldl (fun acc vec => List.zipWith (· + ·) acc vec) early_cash_flows)

/-- The `current_intrinsic_values` of backward step `i`:
`intrinsic_value[-i]`. -/
def lsmCiv {α : Type} (intrinsic_value : List (List α)) (i : Nat) : List α :=
  intrinsic_value.getD (intrinsic_value.length - i) []

/-- The `in_money` mask of backward step `i`:
`current_intrinsic_values > 0`. -/
def lsmInMoney {α : Type} [LinearOrderedField α]
    (intrinsic_value : List (List α)) (i : Nat) : List Bool :=
  (lsmCiv intrinsic_value i).map (fun x => decide ((0 : α) < x))

/-- The `ols_fit` of backward step `i`:
`regress_fun(paths[-i][in_money] / strike, realized[in_money] / strike)`. -/
def lsmFit {α : Type} [LinearOrderedField α]
    (paths intrinsic_value : List (List α)) (strike : α)
    (regress_fun : List α → List α → OlsFit α)
    (realized_cash_flows : List α) (i : Nat) : OlsFit α :=
  regress_fun
    ((selectMask (paths.getD (paths.length - i) [])
        (lsmInMoney intrinsic_value i)).map (fun x => x / strike))
    ((selectMask realized_cash_flows (lsmInMoney intrinsic_value i)).map
      (fun x => x / strike))

/-- The `improvements` of backward step `i`:
`np.where(in_money)[0][ols_fit.fittedvalues * strike <
current_intrinsic_values[in_money]]`. -/
def lsmImprovements {α : Type} [LinearOrderedField α]
    (paths intrinsic_value : List (List α)) (strike : α)
    (regress_fun : List α → List α → OlsFit α)
    (realized_cash_flows : List α) (i : Nat) : List Nat :=
  selectMask (maskIdx (lsmInMoney intrinsic_value i))
    (List.zipWith (fun fv civ => decide (fv * strike < civ))
      (lsmFit paths intrinsic_value strike regress_fun realized_cash_flows
        i).fittedvalues
      (selectMask (lsmCiv intrinsic_value i) (lsmInMoney intrinsic_value i)))

/-- The `early_cash_flows` of backward step `i`: `np.zeros(number_of_paths)`
with `early[improvements] = current_intrinsic_values[improvements]`. -/
def lsmEarly {α : Type} [LinearOrderedField α]
    (paths intrinsic_value : List (List α)) (strike : α)
    (regress_fun : List α → List α → OlsFit α)
    (realized_cash_flows : List α) (number_of_paths i : Nat) : List α :=
  scatterFrom (List.replicate number_of_paths 0) (lsmCiv intrinsic_value i)
    (lsmImprovements paths intrinsic_value strike regress_fun
      realized_cash_flows i)

/-- One backward step of `lsm` (Python loop variable `i ∈ [2, steps−1]`;
negative indexing makes the current row `number_of_steps − i`): if some path
is in the money, regress, exercise where `fittedvalues · strike <
intrinsic`, record the fit; otherwise record the `[]` placeholder (here
`none`) and exercise nobody; finally `add_cash_flows`. -/
def lsmStep {α : Type} [LinearOrderedField α]
    (paths intrinsic_value : List (List α)) (strike : α)
    (regress_fun : List α → List α → OlsFit α) (number_of_paths : Nat)
    (state : List (List α) × List α × List (Option (OlsFit α))) (i : Nat) :
    List (List α) × List α × List (Option (OlsFit α)) :=
  if (lsmInMoney intrinsic_value i).any id then
    let res := add_cash_flows state.1
      (lsmEarly paths intrinsic_value strike regress_fun state.2.1
        number_of_paths i)
    (res.1, res.2,
      state.2.2 ++ [some (lsmFit paths intrinsic_value strike regress_fun
        state.2.1 i)])
  else
    let res := add_cash_flows state.1 (List.replicate number_of_paths 0)
    (res.1, res.2, state.2.2 ++ [none])

/-- The `(cash_flows, realized_cash_flows, ols_fits)` state of `lsm` after
its first `k` backward steps: the initial state takes the terminal intrinsic
row as both the realized vector and the sole stored vector, and the loop
folds `lsmStep` over `i = 2, 3, …` (`k` of them). -/
def lsmStatesAfter {α : Type} [LinearOrderedField α] (paths : List (List α))
    (payoff_fun : List (List α) → List (List α))
    (regress_fun : List α → List α → OlsFit α) (strike : α) (k : Nat) :
    List (List α) × List α × List (Option (OlsFit α)) :=
  let intrinsic_value := payoff_fun paths
  let number_of_paths := (paths.headD []).length
  let realized0 := intrinsic_value.getD (intrinsic_value.length - 1) []
  (List.range' 2 k).foldl
    (lsmStep paths intrinsic_value strike regress_fun number_of_paths)
    ([realized0], realized0, [])

/-- Embedding of `lsm(paths, payoff_fun, regress_fun, discount_rate, T,
strike)` from `src/options/lsm.py`: the full backward sweep (the loop is
`range(2, number_of_steps)`, i.e. `number_of_steps − 2` steps), then `npv`
of the final cash-flow collection at the per-step rate
`discount_rate / (number_of_steps / T)`; returns
`(value, cash_flows, ols_fits)`. -/
noncomputable def lsm (paths : List (List ℝ))
    (payoff_fun : List (List ℝ) → List (List ℝ))
    (regress_fun : List ℝ → List ℝ → OlsFit ℝ)
    (discount_rate T strike : ℝ) :
    (ℝ × ℝ) × List (List ℝ) × List (Option (OlsFit ℝ)) :=
  let number_of_steps := paths.length
  let st := lsmStatesAfter paths payoff_fun regress_fun strike
    (number_of_steps - 2)
  (npv st.1 (discount_rate / ((number_of_steps : ℝ) / T)), st.1, st.2.2)

/-- Spec-side: the positions `p` with `civ[p] > 0` — the in-the-money paths
of the claim — in ascending order. -/
def inMoneyPositions {α : Type} [LinearOrderedField α] (civ : List α) :
    List Nat :=
  ((civ.enum).filter (fun p => decide ((0 : α) < p.2))).map (fun p => p.1)

/-- Spec-side: the entries of `xs` at the in-the-money positions of `civ`,
in ascending position order (the claim's restriction to the in-the-money
subset). -/
def selectInMoney {α : Type} [LinearOrderedField α] (civ xs : List α) :
    List α :=
  ((xs.zip civ).filter (fun p => decide ((0 : α) < p.2))).map (fun p => p.1)

/-! ### Definitions: a store-passing model of `lsm` (aliasing and frame
effects, claim C10)

The value-level embedding above cannot express mutation of `paths`, so for
the frame claim we re-embed the sweep with numpy's sharing made explicit: a
store of row vectors, with row *references* (store indices) passed around.
`intrinsic_value[-1, :]` is a numpy view, so `cash_flows[0]` initially
references the last intrinsic row; `add_cash_flows` mutates the referenced
rows in place (`vec[is_stopped] = 0.0`). -/

/-- A heap of numpy row vectors. -/
abbrev Store (α : Type) := List (List α)

/-- Read the row a reference points to (out-of-range reads give `[]`). -/
def readV {α : Type} (s : Store α) (r : Nat) : List α := s.getD r []

/-- Overwrite the row a reference points to (numpy in-place row
assignment). -/
def writeV {α : Type} (s : Store α) (r : Nat) (v : List α) : Store α :=
  s.set r v

/-- Allocate a fresh row (`np.zeros`, `np.maximum`, `np.copy`): append it
to the store and return the new reference. -/
def alloc {α : Type} (s : Store α) (v : List α) : Store α × Nat :=
  (s ++ [v], s.length)

/-- The loop body of `add_cash_flows` on the store: `vec[is_stopped] = 0.0`
mutates the referenced row in place, then the zeroed row is added into the
running `realized_cash_flows`. -/
def acfStep {α : Type} [LinearOrderedField α] (is_stopped : List Bool)
    (acc : Store α × List α) (r : Nat) : Store α × List α :=
  let zeroed := zeroMask (readV acc.1 r) is_stopped
  (writeV acc.1 r zeroed, List.zipWith (· + ·) acc.2 zeroed)

/-- Store-passing embedding of `add_cash_flows(cash_flows,
early_cash_flows)` from `src/options/lsm.py`: `cash_flows` is a list of row
references and the zeroing is visible through every alias of those rows.
Returns the store, the output references `early_cash_flows :: cash_flows`,
and the realized per-path sum (`np.copy(early_cash_flows)` plus each zeroed
row in turn). -/
def add_cash_flows_s {α : Type} [LinearOrderedField α] (s : Store α)
    (cash_flows : List Nat) (ecf : Nat) : Store α × List Nat × List α :=
  let early := readV s ecf
  let is_stopped := early.map (fun x => decide ((0 : α) < x))
  let res := cash_flows.foldl (acfStep is_stopped) (s, early)
  (res.1, ecf :: cash_flows, res.2)

/-- One backward step of the store-passing `lsm`: the early-exercise row is
computed from the *current* contents of the `paths` and intrinsic rows
(mutations from earlier steps are visible through the references), written
to a freshly allocated row (`np.zeros` plus fancy-index assignment), and
`add_cash_flows` mutates the stored rows. The state is the store, the
cash-flow references and the realized value. -/
def lsmStep_s {α : Type} [LinearOrderedField α]
    (pathRefs intrRefs : List Nat) (strike : α)
    (regress_fun : List α → List α → OlsFit α) (number_of_paths : Nat)
    (state : Store α × List Nat × List α) (i : Nat) :
    Store α × List Nat × List α :=
  let s := state.1
  let pathsNow := pathRefs.map (readV s)
  let intrNow := intrRefs.map (readV s)
  let ecfVal :=
    if (lsmInMoney intrNow i).any id then
      lsmEarly pathsNow intrNow strike regress_fun state.2.2 number_of_paths i
    else
      List.replicate number_of_paths (0 : α)
  let al := alloc s ecfVal
  add_cash_flows_s al.1 state.2.1 al.2

/-- Store-passing embedding of the `lsm` backward sweep from
`src/options/lsm.py` (the bookkeeping that touches memory; the final `npv`
only reads). `payoff_fun` acts on the store and the `paths` row references
and returns the references of the intrinsic-value rows —
`american_put_payoff` allocates fresh rows, but e.g. the identity payoff
returns the `paths` rows themselves. `realized_cash_flows =
intrinsic_value[-1, :]` is a numpy view, so the initial cash-flow
collection holds a reference to that very row. Returns the final store and
the final cash-flow references. -/
def lsm_s {α : Type} [LinearOrderedField α] (s0 : Store α)
    (pathRefs : List Nat)
    (payoff_fun : Store α → List Nat → Store α × List Nat)
    (regress_fun : List α → List α → OlsFit α) (strike : α) :
    Store α × List Nat :=
  let number_of_steps := pathRefs.length
  let number_of_paths := (readV s0 (pathRefs.headD 0)).length
  let pr := payoff_fun s0 pathRefs
  let intrRefs := pr.2
  let rcf0Ref := intrRefs.getD (intrRefs.length - 1) 0
  let realized0 := readV pr.1 rcf0Ref
  let res := (List.range' 2 (number_of_steps - 2)).foldl
    (lsmStep_s pathRefs intrRefs strike regress_fun number_of_paths)
    (pr.1, [rcf0Ref], realized0)
  (res.1, res.2.1)

/-- The identity payoff `lambda values: values` on the store: it returns
the input rows themselves, allocating nothing. -/
def idPayoff {α : Type} : Store α → List Nat → Store α × List Nat :=
  fun s refs => (s, refs)

/-- One step of `freshPayoff`: allocate a fresh row holding the image of
the referenced row under `f` and record its reference. -/
def freshStep {α : Type} (f : α → α) (acc : Store α × List Nat) (r : Nat) :
    Store α × List Nat :=
  let al := alloc acc.1 ((readV acc.1 r).map f)
  (al.1, acc.2 ++ [al.2])

/-- Store model of `american_put_payoff(strike)` — and of any elementwise
numpy ufunc expression such as `np.maximum(strike - values, 0.0)`: a fresh
row is allocated for the image of every input row. -/
def freshPayoff {α : Type} (f : α → α) :
    Store α → List Nat → Store α × List Nat :=
  fun s refs => refs.foldl (freshStep f) (s, [])

/-- `s` extends `s0`: it is at least as long and agrees with `s0` on every
cell below `s0.length` (the frame the claim is about). -/
def StoreExtends {α : Type} (s0 s : Store α) : Prop :=
  s0.length ≤ s.length ∧ ∀ j < s0.length, s.get? j = s0.get? j

/-! ### Theorems: triangular numbers and flat addressing -/

theorem two_mul_tri (n : Nat) : 2 * tri n = n * (n + 1) := by
  induction n with
  | zero => rfl
  | succ n ih => simp only [tri, Nat.mul_add, ih]; ring

theorem gauss_eq_tri (n : Nat) : gauss_first_formula n = (tri n : Int) := by
  have h : (n : Int) * (n + 1) = 2 * (tri n : Int) := by
    exact_mod_cast (two_mul_tri n).symm
  rw [gauss_first_formula, h]
  omega

theorem tri_le_tri {m n : Nat} (h : m ≤ n) : tri m ≤ tri n := by
  induction n with
  | zero => simp_all
  | succ n ih =>
    rcases Nat.lt_or_ge m (n + 1) with h' | h'
    · exact le_trans (ih (Nat.lt_succ_iff.mp h')) (by simp [tri])
    · have : m = n + 1 := le_antisymm h h'
      simp [this]

theorem tri_succ (n : Nat) : tri (n + 1) = tri n + (n + 1) := rfl

theorem flatIdx_lt_tri {ℓ j H : Nat} (hj : j ≤ ℓ) (hℓ : ℓ < H) :
    flatIdx ℓ j < tri H := by
  have h1 : flatIdx ℓ j < tri (ℓ + 1) := by
    simp only [flatIdx, tri_succ]; omega
  exact lt_of_lt_of_le h1 (tri_le_tri hℓ)

theorem flatIdx_inj {ℓ j ℓ' j' : Nat} (hj : j ≤ ℓ) (hj' : j' ≤ ℓ')
    (h : flatIdx ℓ j = flatIdx ℓ' j') : ℓ = ℓ' ∧ j = j' := by
  rcases Nat.lt_trichotomy ℓ ℓ' with hlt | heq | hgt
  · exfalso
    have : flatIdx ℓ j < tri ℓ' := flatIdx_lt_tri hj hlt
    have : tri ℓ' ≤ flatIdx ℓ' j' := Nat.le_add_right _ _
    omega
  · refine ⟨heq, ?_⟩
    simp only [flatIdx, heq] at h
    omega
  · exfalso
    have : flatIdx ℓ' j' < tri ℓ := flatIdx_lt_tri hj' hgt
    have : tri ℓ ≤ flatIdx ℓ j := Nat.le_add_right _ _
    omega

theorem gauss_int_of_nonneg (h : Int) (hh : 0 ≤ h) :
    gauss_first_formula h = (tri h.toNat : Int) := by
  have e : ((h.toNat : Int)) = h := Int.toNat_of_nonneg hh
  conv_lhs => rw [← e]
  rw [gauss_eq_tri]

theorem gauss_toNat (h : Int) (hh : 0 ≤ h) :
    (gauss_first_formula h).toNat = tri h.toNat := by
  rw [gauss_int_of_nonneg h hh]
  exact Int.toNat_natCast _

theorem index_cast (ℓ j : Nat) :
    gauss_first_formula (ℓ : Int) + (j : Int) = ((flatIdx ℓ j : Nat) : Int) := by
  rw [gauss_eq_tri]
  simp [flatIdx]

theorem gauss_pred_toNat (ℓ : Nat) :
    (gauss_first_formula ((ℓ : Int) - 1)).toNat = tri (ℓ - 1) := by
  cases ℓ with
  | zero => rfl
  | succ k =>
    have : ((k + 1 : Nat) : Int) - 1 = (k : Int) := by push_cast; ring
    rw [this, gauss_eq_tri]
    simp

/-! ### Theorems: `Tree` access characterization -/

namespace Tree

theorem init_eq {α : Type} (h : Int) (v : α) (hh : 0 ≤ h) :
    Tree.init h v = .ok ⟨h, List.replicate (tri h.toNat) v⟩ := by
  unfold Tree.init
  rw [if_neg (by omega), gauss_toNat h hh]

theorem WF_init {α : Type} (h : Int) (v : α) (hh : 0 ≤ h) :
    WF (⟨h, List.replicate (tri h.toNat) v⟩ : Tree α) :=
  ⟨hh, by simp⟩

theorem get_node_ok {α : Type} (t : Tree α) {ℓ j : Nat} {v : α} (hj : j ≤ ℓ)
    (hv : t.nodes.get? (flatIdx ℓ j) = some v) :
    t.get_node (ℓ : Int) (j : Int) = .ok v := by
  unfold Tree.get_node
  rw [if_neg (by exact_mod_cast not_lt.mpr (by exact_mod_cast hj)), index_cast]
  unfold pyGet
  rw [if_pos (by positivity)]
  simp only [Int.toNat_natCast]
  rw [hv]

theorem set_node_ok {α : Type} (t : Tree α) {ℓ j : Nat} (v : α) (hj : j ≤ ℓ)
    (hlen : flatIdx ℓ j < t.nodes.length) :
    t.set_node (ℓ : Int) (j : Int) v = .ok ⟨t.height, t.nodes.set (flatIdx ℓ j) v⟩ := by
  unfold Tree.set_node
  rw [if_neg (by exact_mod_cast not_lt.mpr (by exact_mod_cast hj)), index_cast]
  unfold pySet
  rw [if_pos (by positivity), if_pos (by exact_mod_cast hlen)]
  simp only [Int.toNat_natCast]

/-- In a well-formed tree, every valid strictly-below-height position is
a real buffer index. -/
theorem flatIdx_lt_len {α : Type} {t : Tree α} (hwf : WF t) {ℓ j : Nat}
    (hj : j ≤ ℓ) (hℓ : (ℓ : Int) < t.height) : flatIdx ℓ j < t.nodes.length := by
  rw [hwf.2]
  refine flatIdx_lt_tri hj ?_
  omega

theorem get_node_err_of_element_gt {α : Type} (t : Tree α) {lvl idx : Int}
    (h : lvl < idx) : t.get_node lvl idx = .error "element out of bounds" := by
  unfold Tree.get_node
  rw [if_pos h]

theorem set_node_err_of_element_gt {α : Type} (t : Tree α) {lvl idx : Int} (v : α)
    (h : lvl < idx) : t.set_node lvl idx v = .error "element out of bounds" := by
  unfold Tree.set_node
  rw [if_pos h]

theorem len_le_flat {α : Type} {t : Tree α} (hwf : WF t) {lvl idx : Int}
    (hl : t.height < lvl) (hi : 0 ≤ idx) :
    (t.nodes.length : Int) ≤ gauss_first_formula lvl + idx := by
  have h0 : 0 ≤ t.height := hwf.1
  have hlnn : 0 ≤ lvl := by omega
  have h1 : t.height.toNat + 1 ≤ lvl.toNat := by omega
  have h2 : tri (t.height.toNat + 1) ≤ tri lvl.toNat := tri_le_tri h1
  have h3 : tri t.height.toNat < tri lvl.toNat := by
    rw [tri_succ] at h2; omega
  rw [gauss_int_of_nonneg lvl hlnn, hwf.2]
  omega

theorem get_node_err_of_level_gt {α : Type} {t : Tree α} (hwf : WF t) {lvl idx : Int}
    (hl : t.height < lvl) (hi : 0 ≤ idx) (hile : idx ≤ lvl) :
    t.get_node lvl idx = .error "IndexError" := by
  have hidx : (t.nodes.length : Int) ≤ gauss_first_formula lvl + idx :=
    len_le_flat hwf hl hi
  unfold Tree.get_node
  rw [if_neg (not_lt.mpr hile)]
  unfold pyGet
  have hnn : 0 ≤ gauss_first_formula lvl + idx := by
    have := gauss_int_of_nonneg lvl (by omega)
    omega
  rw [if_pos hnn]
  have : t.nodes.length ≤ (gauss_first_formula lvl + idx).toNat := by omega
  rw [List.get?_eq_getElem?, List.getElem?_eq_none this]

theorem set_node_err_of_level_gt {α : Type} {t : Tree α} (hwf : WF t) {lvl idx : Int}
    (v : α) (hl : t.height < lvl) (hi : 0 ≤ idx) (hile : idx ≤ lvl) :
    t.set_node lvl idx v = .error "IndexError" := by
  have hidx : (t.nodes.length : Int) ≤ gauss_first_formula lvl + idx :=
    len_le_flat hwf hl hi
  unfold Tree.set_node
  rw [if_neg (not_lt.mpr hile)]
  unfold pySet
  have hnn : 0 ≤ gauss_first_formula lvl + idx := by
    have := gauss_int_of_nonneg lvl (by omega)
    omega
  rw [if_pos hnn, if_neg (by omega)]

theorem get_level_ok {α : Type} {t : Tree α} (hwf : WF t) (ℓ : Nat)
    (hle : (ℓ : Int) ≤ t.height) :
    t.get_level (ℓ : Int) = .ok (pySlice t.nodes (tri (ℓ - 1)) (tri ℓ)) := by
  have h0 : 0 ≤ t.height := hwf.1
  have hn : ℓ ≤ t.height.toNat := by omega
  unfold Tree.get_level
  rw [if_neg (by omega)]
  have hg : gauss_first_formula (ℓ : Int) = (tri ℓ : Int) := gauss_eq_tri ℓ
  simp only [hg]
  rw [if_neg (by
    rw [hwf.2]
    exact_mod_cast not_lt.mpr (by exact_mod_cast tri_le_tri hn))]
  rw [gauss_pred_toNat]
  simp

theorem get_level_err_neg {α : Type} (t : Tree α) {lvl : Int} (h : lvl < 0) :
    t.get_level lvl = .error "level should be nonnegative" := by
  unfold Tree.get_level
  rw [if_pos h]

theorem get_level_err_high {α : Type} {t : Tree α} (hwf : WF t) {lvl : Int}
    (h : t.height < lvl) : t.get_level lvl = .error "tree lower than given level" := by
  have h0 : 0 ≤ t.height := hwf.1
  unfold Tree.get_level
  rw [if_neg (by omega)]
  have h1 : t.height.toNat + 1 ≤ lvl.toNat := by omega
  have h2 : tri t.height.toNat < tri lvl.toNat := by
    have := tri_le_tri h1
    rw [tri_succ] at this
    omega
  simp only [gauss_int_of_nonneg lvl (by omega), hwf.2]
  rw [if_pos (by exact_mod_cast h2)]

end Tree

/-! ### Claims C3, C6, C7, C8, C9 (the `Tree` store) -/

/-- C3 counterexample: a height-0 tree allocates 0 cells, not
`0·(0+1)/2 + 0 + 1 = 1` as the claim states. -/
theorem c3_counterexample :
    (Tree.init 0 (0 : Int)).map (fun t => t.nodes.length) = .ok 0 ∧
      (0 : Nat) ≠ 0 * (0 + 1) / 2 + 0 + 1 :=
  ⟨rfl, by decide⟩

/-- C3 (amended): for every `height ≥ 0`, `Tree.init` allocates a buffer of
exactly `height·(height+1)/2` cells — room for levels `0` through `height−1`
only, not through `height`. -/
theorem c3_storage_size {α : Type} (h : Int) (v : α) (hh : 0 ≤ h) :
    ∃ t : Tree α, Tree.init h v = .ok t ∧
      (t.nodes.length : Int) = h * (h + 1) / 2 := by
  refine ⟨_, Tree.init_eq h v hh, ?_⟩
  simp only [List.length_replicate]
  rw [← gauss_int_of_nonneg h hh]
  rfl

/-- C3 witness: the theorem applied at `height = 3` (6 cells). -/
theorem c3_storage_size_witness :
    (0 : Int) ≤ 3 ∧ ∃ t : Tree Int, Tree.init 3 0 = .ok t ∧
      (t.nodes.length : Int) = 3 * (3 + 1) / 2 :=
  ⟨by decide, c3_storage_size 3 0 (by decide)⟩

/-- C6 counterexample: after `set_node(0,0,5)` on a height-1 tree,
`get_level 0` returns `[]`, not the one value `[5]` stored at level 0. -/
theorem c6_counterexample :
    (do
      let t ← Tree.init 1 (0 : Int)
      let t ← t.set_node 0 0 5
      t.get_level 0) = .ok [] ∧ ([] : List Int) ≠ [5] :=
  ⟨rfl, by decide⟩

/-- C6 (amended): `get_level level` succeeds iff `0 ≤ level ≤ height`;
`get_level 0` is the empty sequence; and for `1 ≤ level ≤ height` it returns
the `level` values addressed by `get_node`/`set_node` at level `level − 1`
(the buffer segment between consecutive triangular numbers), in order. -/
theorem c6_get_level_shifted {α : Type} (t : Tree α) (hwf : Tree.WF t) :
    (∀ lvl : Int, (∃ l, t.get_level lvl = .ok l) ↔ 0 ≤ lvl ∧ lvl ≤ t.height) ∧
    t.get_level 0 = .ok [] ∧
    (∀ ℓ : Nat, 1 ≤ ℓ → (ℓ : Int) ≤ t.height →
      ∃ l, t.get_level (ℓ : Int) = .ok l ∧ l.length = ℓ ∧
        ∀ j : Nat, j < ℓ →
          ∃ v, l.get? j = some v ∧ t.get_node ((ℓ : Int) - 1) (j : Int) = .ok v) := by
  have h0 : 0 ≤ t.height := hwf.1
  refine ⟨?_, ?_, ?_⟩
  · intro lvl
    constructor
    · rintro ⟨l, hl⟩
      by_contra hc
      rcases not_and_or.mp hc with hc | hc
      · rw [Tree.get_level_err_neg t (by omega)] at hl
        exact absurd hl (by simp)
      · rw [Tree.get_level_err_high hwf (by omega)] at hl
        exact absurd hl (by simp)
    · rintro ⟨h1, h2⟩
      have : lvl = ((lvl.toNat : Nat) : Int) := by omega
      rw [this]
      exact ⟨_, Tree.get_level_ok hwf lvl.toNat (by omega)⟩
  · have := Tree.get_level_ok hwf 0 (by omega)
    simpa [pySlice] using this
  · intro ℓ h1 h2
    refine ⟨_, Tree.get_level_ok hwf ℓ h2, ?_, ?_⟩
    · have hlen : tri ℓ ≤ t.nodes.length := by
        rw [hwf.2]
        exact tri_le_tri (by omega)
      simp only [pySlice, List.length_drop, List.length_take]
      have hp : ℓ - 1 + 1 = ℓ := by omega
      have htri : tri (ℓ - 1) + ℓ = tri ℓ := by
        conv_rhs => rw [← hp, tri_succ]
        omega
      omega
    · intro j hj
      have hp : ℓ - 1 + 1 = ℓ := by omega
      have htri : tri (ℓ - 1) + ℓ = tri ℓ := by
        conv_rhs => rw [← hp, tri_succ]
        omega
      have hidx : tri (ℓ - 1) + j < tri ℓ := by omega
      have hlen : tri ℓ ≤ t.nodes.length := by
        rw [hwf.2]
        exact tri_le_tri (by omega)
      have hv : ∃ v, t.nodes.get? (tri (ℓ - 1) + j) = some v := by
        rw [List.get?_eq_getElem?]
        exact ⟨_, List.getElem?_eq_getElem (by omega)⟩
      rcases hv with ⟨v, hv⟩
      refine ⟨v, ?_, ?_⟩
      · simp only [pySlice, List.get?_eq_getElem?, List.getElem?_drop,
          List.getElem?_take, hidx, if_pos]
        rw [← List.get?_eq_getElem?]
        exact hv
      · have hc : (ℓ : Int) - 1 = ((ℓ - 1 : Nat) : Int) := by omega
        rw [hc]
        exact Tree.get_node_ok t (by omega)
          (by rw [show flatIdx (ℓ - 1) j = tri (ℓ - 1) + j from rfl]; exact hv)

/-- C6 witness: the theorem applied to the well-formed height-1 tree `⟨1, [5]⟩`. -/
theorem c6_get_level_shifted_witness :
    Tree.WF (⟨1, [5]⟩ : Tree Int) ∧
    ((∀ lvl : Int, (∃ l, (⟨1, [5]⟩ : Tree Int).get_level lvl = .ok l) ↔
        0 ≤ lvl ∧ lvl ≤ (⟨1, [5]⟩ : Tree Int).height) ∧
      (⟨1, [5]⟩ : Tree Int).get_level 0 = .ok [] ∧
      (∀ ℓ : Nat, 1 ≤ ℓ → (ℓ : Int) ≤ (⟨1, [5]⟩ : Tree Int).height →
        ∃ l, (⟨1, [5]⟩ : Tree Int).get_level (ℓ : Int) = .ok l ∧ l.length = ℓ ∧
          ∀ j : Nat, j < ℓ →
            ∃ v, l.get? j = some v ∧
              (⟨1, [5]⟩ : Tree Int).get_node ((ℓ : Int) - 1) (j : Int) = .ok v)) :=
  ⟨⟨by decide, by decide⟩,
    c6_get_level_shifted (⟨1, [5]⟩ : Tree Int) ⟨by decide, by decide⟩⟩

/-- C7 counterexample: on a height-0 tree the claimed valid node `(0,0)` is
not even settable — `set_node(0,0,5)` raises `IndexError`. -/
theorem c7_counterexample :
    (do
      let t ← Tree.init 0 (0 : Int)
      let t ← t.set_node 0 0 5
      t.get_node 0 0) = .error "IndexError" :=
  rfl

/-- C7 (amended): the set-then-get roundtrip holds exactly for
`0 ≤ j ≤ ℓ ≤ H − 1`, i.e. strictly below the nominal height. -/
theorem c7_set_get_roundtrip {α : Type} (t : Tree α) (hwf : Tree.WF t)
    (ℓ j : Nat) (v : α) (hj : j ≤ ℓ) (hℓ : (ℓ : Int) < t.height) :
    ∃ t', t.set_node (ℓ : Int) (j : Int) v = .ok t' ∧
      t'.get_node (ℓ : Int) (j : Int) = .ok v := by
  have hlen : flatIdx ℓ j < t.nodes.length := Tree.flatIdx_lt_len hwf hj hℓ
  refine ⟨_, Tree.set_node_ok t v hj hlen, ?_⟩
  refine Tree.get_node_ok _ hj ?_
  simp only [List.get?_eq_getElem?]
  rw [List.getElem?_set_self' (l := t.nodes)]
  simp [hlen]

/-- C7 witness: roundtrip at node `(1, 0)` of a well-formed height-2 tree. -/
theorem c7_set_get_roundtrip_witness :
    Tree.WF (⟨2, [7, 7, 7]⟩ : Tree Int) ∧
    ∃ t', (⟨2, [7, 7, 7]⟩ : Tree Int).set_node ((1 : Nat) : Int) ((0 : Nat) : Int) 9 = .ok t' ∧
      t'.get_node ((1 : Nat) : Int) ((0 : Nat) : Int) = .ok 9 :=
  ⟨⟨by decide, by decide⟩,
    c7_set_get_roundtrip (⟨2, [7, 7, 7]⟩ : Tree Int) ⟨by decide, by decide⟩
      1 0 9 (by decide) (by decide)⟩

/-- C8 counterexample: the claim says a negative index always fails, but on a
height-2 tree `get_node(1, -1)` succeeds (Python negative indexing wraps to
flat cell 0) and returns the stored value. -/
theorem c8_counterexample :
    (do
      let t ← Tree.init 2 (7 : Int)
      t.get_node 1 (-1)) = .ok 7 :=
  rfl

/-- C8 (amended): creation fails for `height < 0`; `get_node`/`set_node` fail
with "element out of bounds" whenever `index > level`, and with `IndexError`
whenever `level > height` with `0 ≤ index ≤ level`; a negative index, however,
may succeed by wrapping (see the counterexample). -/
theorem c8_error_conditions (t : Tree Int) (hwf : Tree.WF t)
    (hgt lvl idx v : Int) (hhgt : hgt < 0)
    (hli : lvl < idx ∨ (t.height < lvl ∧ 0 ≤ idx ∧ idx ≤ lvl)) :
    Tree.init hgt v = .error "height should be nonnegative" ∧
    t.get_node lvl idx = .error (if lvl < idx then "element out of bounds" else "IndexError") ∧
    t.set_node lvl idx v = .error (if lvl < idx then "element out of bounds" else "IndexError") := by
  refine ⟨by unfold Tree.init; rw [if_pos hhgt], ?_, ?_⟩
  · rcases hli with h | ⟨h1, h2, h3⟩
    · rw [if_pos h]
      exact Tree.get_node_err_of_element_gt t h
    · rw [if_neg (by omega)]
      exact Tree.get_node_err_of_level_gt hwf h1 h2 h3
  · rcases hli with h | ⟨h1, h2, h3⟩
    · rw [if_pos h]
      exact Tree.set_node_err_of_element_gt t v h
    · rw [if_neg (by omega)]
      exact Tree.set_node_err_of_level_gt hwf v h1 h2 h3

/-- C8 witness: the theorem applied to the well-formed height-2 tree
`⟨2, [7, 7, 7]⟩` at `level = 3 > height`, `index = 0`. -/
theorem c8_error_conditions_witness :
    Tree.WF (⟨2, [7, 7, 7]⟩ : Tree Int) ∧
    ((-1 : Int) < 0) ∧
    ((3 : Int) < 0 ∨ ((⟨2, [7, 7, 7]⟩ : Tree Int).height < 3 ∧ (0 : Int) ≤ 0 ∧ (0 : Int) ≤ 3)) ∧
    (Tree.init (-1) (5 : Int) = .error "height should be nonnegative" ∧
      (⟨2, [7, 7, 7]⟩ : Tree Int).get_node 3 0 =
        .error (if (3 : Int) < 0 then "element out of bounds" else "IndexError") ∧
      (⟨2, [7, 7, 7]⟩ : Tree Int).set_node 3 0 5 =
        .error (if (3 : Int) < 0 then "element out of bounds" else "IndexError")) :=
  ⟨⟨by decide, by decide⟩, by decide,
    Or.inr ⟨by decide, by decide, by decide⟩,
    c8_error_conditions (⟨2, [7, 7, 7]⟩ : Tree Int) ⟨by decide, by decide⟩
      (-1) 3 0 5 (by decide)
      (Or.inr ⟨by decide, by decide, by decide⟩)⟩

/-- C9 counterexample: the rendered text is not one blank line followed by the
two content lines — there is a second blank line (level 0 renders empty). -/
theorem c9_counterexample : renderScenario ≠ .ok "\n1\n3, 2" := by
  have h : renderScenario = .ok "\n\n1\n3, 2" := rfl
  rw [h]
  intro hc
  exact absurd (Except.ok.inj hc) (by decide)

/-- C9 (amended): the height-2 scenario renders as a leading line break, an
empty line for level 0 (whose `get_level` slice is empty), then `1`, then
`3, 2` — i.e. two blank lines followed by the two content lines. -/
theorem c9_render : renderScenario = .ok "\n\n1\n3, 2" := rfl

/-! ### Theorems: list update helpers -/

theorem get?_set_self {α : Type} {l : List α} {i : Nat} {v : α}
    (h : i < l.length) : (l.set i v).get? i = some v := by
  rw [List.get?_eq_getElem?]
  simp [List.getElem?_set_self', h]

theorem get?_set_ne {α : Type} {l : List α} {i k : Nat} (v : α)
    (h : i ≠ k) : (l.set i v).get? k = l.get? k := by
  simp [List.get?_eq_getElem?, List.getElem?_set_ne h]

/-! ### Theorems: the generic level write loop -/

/-- Running `writeLoop` over a duplicate-free set of columns `js ⊆ S` of
level `L < height` succeeds, writes `w j` at each column `j ∈ js`, and leaves
every other cell unchanged — provided the read step `R` yields `w j` on any
tree that agrees with the base tree `t0` outside the level-`L` cells of `S`. -/
theorem writeLoop_spec {α : Type} (L : Nat) (R : Tree α → Nat → Except String α)
    (w : Nat → α) (t0 : Tree α) (hwf0 : Tree.WF t0) (hL : (L : Int) < t0.height)
    (S : List Nat)
    (hR : ∀ t' : Tree α, t'.height = t0.height → t'.nodes.length = t0.nodes.length →
      (∀ idx : Nat, (∀ j ∈ S, idx ≠ flatIdx L j) → t'.nodes.get? idx = t0.nodes.get? idx) →
      ∀ j ∈ S, R t' j = .ok (w j)) :
    ∀ js : List Nat, js.Nodup → (∀ j ∈ js, j ∈ S ∧ j ≤ L) →
    ∀ t : Tree α, t.height = t0.height → t.nodes.length = t0.nodes.length →
      (∀ idx : Nat, (∀ j ∈ S, idx ≠ flatIdx L j) → t.nodes.get? idx = t0.nodes.get? idx) →
      ∃ t', writeLoop L R js t = .ok t' ∧ t'.height = t0.height ∧
        t'.nodes.length = t0.nodes.length ∧
        (∀ idx : Nat, (∀ j ∈ S, idx ≠ flatIdx L j) → t'.nodes.get? idx = t0.nodes.get? idx) ∧
        (∀ idx : Nat, (∀ j ∈ js, idx ≠ flatIdx L j) → t'.nodes.get? idx = t.nodes.get? idx) ∧
        (∀ j ∈ js, t'.nodes.get? (flatIdx L j) = some (w j)) := by
  intro js
  induction js with
  | nil =>
    intro _ _ t ht hlen hagree
    exact ⟨t, rfl, ht, hlen, hagree, fun idx _ => rfl, by simp⟩
  | cons j rest ih =>
    intro hnd hjs t ht hlen hagree
    obtain ⟨hjS, hjL⟩ := hjs j (by simp)
    have hRj : R t j = .ok (w j) := hR t ht hlen hagree j hjS
    have hflat : flatIdx L j < t.nodes.length := by
      rw [hlen, hwf0.2]
      refine flatIdx_lt_tri hjL ?_
      have := hwf0.1
      omega
    have hset := Tree.set_node_ok t (w j) hjL hflat
    have hstep : writeLoop L R (j :: rest) t =
        writeLoop L R rest ⟨t.height, t.nodes.set (flatIdx L j) (w j)⟩ := by
      unfold writeLoop
      rw [List.foldlM_cons]
      have e1 : (do
          let x ← R t j
          t.set_node (L : Int) (j : Int) x : Except String (Tree α)) =
          Except.ok ⟨t.height, t.nodes.set (flatIdx L j) (w j)⟩ := by
        rw [hRj]
        exact hset
      rw [e1]
      rfl
    have ht1h : (⟨t.height, t.nodes.set (flatIdx L j) (w j)⟩ : Tree α).height = t0.height := ht
    have ht1l : (⟨t.height, t.nodes.set (flatIdx L j) (w j)⟩ : Tree α).nodes.length =
        t0.nodes.length := by
      simpa using hlen
    have ht1agree : ∀ idx : Nat, (∀ j' ∈ S, idx ≠ flatIdx L j') →
        (⟨t.height, t.nodes.set (flatIdx L j) (w j)⟩ : Tree α).nodes.get? idx =
          t0.nodes.get? idx := by
      intro idx hidx
      have : (t.nodes.set (flatIdx L j) (w j)).get? idx = t.nodes.get? idx :=
        get?_set_ne _ (fun hc => (hidx j hjS) hc.symm)
      rw [show (⟨t.height, t.nodes.set (flatIdx L j) (w j)⟩ : Tree α).nodes =
        t.nodes.set (flatIdx L j) (w j) from rfl, this]
      exact hagree idx hidx
    obtain ⟨t', hrun, h1, h2, h3, h4, h5⟩ :=
      ih hnd.of_cons (fun j' hj' => hjs j' (by simp [hj'])) _ ht1h ht1l ht1agree
    refine ⟨t', by rw [hstep]; exact hrun, h1, h2, h3, ?_, ?_⟩
    · intro idx hidx
      have h4' := h4 idx (fun j' hj' => hidx j' (by simp [hj']))
      rw [h4']
      exact get?_set_ne _ (fun hc => (hidx j (by simp)) hc.symm)
    · intro j' hj'
      rcases List.mem_cons.mp hj' with hj' | hj'
      · subst hj'
        have hnotin : j' ∉ rest := (List.nodup_cons.mp hnd).1
        have h4' := h4 (flatIdx L j') (by
          intro j'' hj''
          simp only [flatIdx]
          have : j' ≠ j'' := fun hc => hnotin (hc ▸ hj'')
          omega)
        rw [h4']
        exact get?_set_self (by simpa using hflat)
      · exact h5 j' hj'

/-! ### Theorems: the binomial lattice construction -/

theorem bindOk {ε α β : Type} (a : α) (f : α → Except ε β) :
    (Except.ok (ε := ε) a >>= f) = f a := rfl

theorem stockPrice_up (s0 u d : ℝ) {i : Nat} (hi : 1 ≤ i) :
    stockPrice s0 u d i 0 = stockPrice s0 u d (i - 1) 0 * u := by
  cases i with
  | zero => omega
  | succ m => simp [stockPrice]

theorem stockPrice_down (s0 u d : ℝ) {i j : Nat} (hi : 1 ≤ i) (hj : 1 ≤ j) :
    stockPrice s0 u d i j = stockPrice s0 u d (i - 1) (j - 1) * d := by
  cases i with
  | zero => omega
  | succ m =>
    cases j with
    | zero => omega
    | succ k => simp [stockPrice]

theorem valueNode_terminal (f : ℝ → ℝ → ℝ) (K cc qu qd : ℝ)
    (price : Nat → Nat → ℝ) (T j : Nat) :
    valueNode f K cc qu qd price T T j = f (price T j) K := by
  unfold valueNode
  rw [Nat.sub_self]
  rfl

theorem valueNode_rec (f : ℝ → ℝ → ℝ) (K cc qu qd : ℝ)
    (price : Nat → Nat → ℝ) (T : Nat) {i : Nat} (j : Nat) (hi : i < T) :
    valueNode f K cc qu qd price T i j =
      (1 / cc) * (qu * valueNode f K cc qu qd price T (i + 1) j +
        qd * valueNode f K cc qu qd price T (i + 1) (j + 1)) := by
  unfold valueNode
  have h : T - i = (T - (i + 1)) + 1 := by omega
  rw [h]
  rfl

/-- `bandPopulated` trees are well-formed in the `Tree.WF` sense. -/
theorem bandPopulated_WF {steps : Nat} {g : Nat → Nat → ℝ} {lo hi : Nat}
    {t : Tree ℝ} (hb : bandPopulated steps g lo hi t) : Tree.WF t := by
  refine ⟨by rw [hb.1]; positivity, ?_⟩
  rw [hb.2.1, hb.1]
  simp

/-- One forward level preserves the populated band and extends it by level
`i`, which receives the up/down recurrence values. -/
theorem forwardLevel_spec (u d s0 : ℝ) (steps : Nat) (i : Nat)
    (hi : 1 ≤ i) (his : i ≤ steps - 1) (hsteps : 1 ≤ steps)
    (t : Tree ℝ) (hband : bandPopulated steps (stockPrice s0 u d) 0 (i - 1) t) :
    ∃ t', forwardLevel u d t i = .ok t' ∧
      bandPopulated steps (stockPrice s0 u d) 0 i t' := by
  obtain ⟨hht, hlent, hcells⟩ := hband
  have hwf : Tree.WF t := bandPopulated_WF ⟨hht, hlent, hcells⟩
  have hilt : i < steps := by omega
  have hcast : ((i : Int) - 1) = ((i - 1 : Nat) : Int) := by omega
  -- the top read
  have htop : t.get_node ((i : Int) - 1) 0 = .ok (stockPrice s0 u d (i - 1) 0) := by
    rw [hcast]
    exact Tree.get_node_ok t (Nat.zero_le _) (hcells (i - 1) 0 (by omega) (by omega) (by omega))
  -- the write of column 0
  have hflat0 : flatIdx i 0 < t.nodes.length := by
    rw [hlent]
    exact flatIdx_lt_tri (Nat.zero_le _) hilt
  have hset0 := Tree.set_node_ok t (stockPrice s0 u d (i - 1) 0 * u) (Nat.zero_le i) hflat0
  simp only [Nat.cast_zero] at hset0
  -- the inner write loop, via writeLoop_spec on the tree after the column-0 write
  have h10 : tri i ≤ flatIdx i 0 := Nat.le_add_right _ _
  obtain ⟨t2, hrun2, hh2, hl2, _, hfr2, hval2⟩ :=
    writeLoop_spec i
      (fun t' j => do
        let p ← t'.get_node ((i : Int) - 1) ((j : Int) - 1)
        pure (p * d))
      (fun j => stockPrice s0 u d (i - 1) (j - 1) * d)
      (⟨t.height, t.nodes.set (flatIdx i 0) (stockPrice s0 u d (i - 1) 0 * u)⟩ : Tree ℝ)
      ⟨by rw [show (⟨t.height, _⟩ : Tree ℝ).height = t.height from rfl, hht]; positivity,
        by simp only [List.length_set]; rw [hlent, hht]; simp⟩
      (by rw [show (⟨t.height, _⟩ : Tree ℝ).height = t.height from rfl, hht]; exact_mod_cast hilt)
      (List.range' 1 i)
      (by
        intro t' hh' hl' hagree' j hj
        obtain ⟨hj1, hj2⟩ := List.mem_range'_1.mp hj
        have hjle : j ≤ i := by omega
        have hidxlt : flatIdx (i - 1) (j - 1) < tri i :=
          flatIdx_lt_tri (by omega) (by omega)
        have hread : t'.nodes.get? (flatIdx (i - 1) (j - 1)) =
            some (stockPrice s0 u d (i - 1) (j - 1)) := by
          rw [hagree' _ (by
            intro j'' hj''
            obtain ⟨h1'', h2''⟩ := List.mem_range'_1.mp hj''
            have : tri i ≤ flatIdx i j'' := Nat.le_add_right _ _
            omega)]
          rw [show (⟨t.height, t.nodes.set (flatIdx i 0) (stockPrice s0 u d (i - 1) 0 * u)⟩ :
            Tree ℝ).nodes = t.nodes.set (flatIdx i 0) (stockPrice s0 u d (i - 1) 0 * u) from rfl]
          rw [get?_set_ne _ (by omega)]
          exact hcells (i - 1) (j - 1) (by omega) (by omega) (by omega)
        have hgn : t'.get_node ((i : Int) - 1) ((j : Int) - 1) =
            .ok (stockPrice s0 u d (i - 1) (j - 1)) := by
          rw [hcast, show ((j : Int) - 1) = ((j - 1 : Nat) : Int) from by omega]
          exact Tree.get_node_ok t' (by omega) hread
        show (do
          let p ← t'.get_node ((i : Int) - 1) ((j : Int) - 1)
          pure (p * d) : Except String ℝ) = .ok (stockPrice s0 u d (i - 1) (j - 1) * d)
        rw [hgn]
        rfl)
      (List.range' 1 i) (List.nodup_range' 1 i)
      (fun j hj => ⟨hj, by
        obtain ⟨h1', h2'⟩ := List.mem_range'_1.mp hj
        omega⟩)
      _ rfl rfl (fun idx _ => rfl)
  refine ⟨t2, ?_, ?_⟩
  · unfold forwardLevel
    rw [htop]
    rw [bindOk]
    rw [hset0]
    rw [bindOk]
    exact hrun2
  · refine ⟨by rw [hh2, hht], by rw [hl2]; simpa using hlent, ?_⟩
    intro ℓ j _ hℓi hjℓ
    rcases Nat.lt_or_ge ℓ i with hcase | hcase
    · -- strictly below level i: untouched by both writes
      have hidxlt : flatIdx ℓ j < tri i := flatIdx_lt_tri hjℓ hcase
      rw [hfr2 _ (by
        intro j'' hj''
        obtain ⟨h1'', _⟩ := List.mem_range'_1.mp hj''
        have : tri i ≤ flatIdx i j'' := Nat.le_add_right _ _
        omega)]
      rw [show (⟨t.height, t.nodes.set (flatIdx i 0) (stockPrice s0 u d (i - 1) 0 * u)⟩ :
        Tree ℝ).nodes = t.nodes.set (flatIdx i 0) (stockPrice s0 u d (i - 1) 0 * u) from rfl]
      rw [get?_set_ne _ (by omega)]
      exact hcells ℓ j (by omega) (by omega) hjℓ
    · -- level i itself
      have hℓ : ℓ = i := by omega
      subst hℓ
      rcases Nat.eq_zero_or_pos j with hj0 | hjpos
      · subst hj0
        rw [hfr2 _ (by
          intro j'' hj''
          obtain ⟨h1'', _⟩ := List.mem_range'_1.mp hj''
          simp only [flatIdx]
          omega)]
        rw [show (⟨t.height, t.nodes.set (flatIdx ℓ 0) (stockPrice s0 u d (ℓ - 1) 0 * u)⟩ :
          Tree ℝ).nodes = t.nodes.set (flatIdx ℓ 0) (stockPrice s0 u d (ℓ - 1) 0 * u) from rfl]
        rw [get?_set_self (by omega)]
        rw [← stockPrice_up s0 u d hi]
      · have hval := hval2 j (List.mem_range'_1.mpr ⟨hjpos, by omega⟩)
        rw [hval, ← stockPrice_down s0 u d hi hjpos]

/-- The forward pass over levels `a .. a+b-1` extends the populated band. -/
theorem forward_fold (u d s0 : ℝ) (steps : Nat) (hsteps : 1 ≤ steps) :
    ∀ (b a : Nat), 1 ≤ a → a + b ≤ steps →
    ∀ t : Tree ℝ, bandPopulated steps (stockPrice s0 u d) 0 (a - 1) t →
    ∃ t', (List.range' a b).foldlM (forwardLevel u d) t = .ok t' ∧
      bandPopulated steps (stockPrice s0 u d) 0 (a + b - 1) t' := by
  intro b
  induction b with
  | zero =>
    intro a ha hab t hband
    exact ⟨t, rfl, hband⟩
  | succ b ih =>
    intro a ha hab t hband
    obtain ⟨t1, hrun1, hband1⟩ :=
      forwardLevel_spec u d s0 steps a ha (by omega) hsteps t hband
    obtain ⟨t', hrun', hband'⟩ := ih (a + 1) (by omega) (by omega) t1
      (by simpa using hband1)
    refine ⟨t', ?_, by
      have : a + (b + 1) - 1 = a + 1 + b - 1 := by omega
      rw [this]
      exact hband'⟩
    rw [show List.range' a (b + 1) = a :: List.range' (a + 1) b from rfl]
    rw [List.foldlM_cons, hrun1, bindOk]
    exact hrun'

/-- One backward level preserves the populated band above `i` and extends it
down to level `i`, which receives the discounted-expectation recurrence
values. -/
theorem backwardLevel_spec (cc qu qd : ℝ) (steps : Nat) (G : Nat → Nat → ℝ)
    (i : Nat) (hsteps : 1 ≤ steps) (hi : i + 1 ≤ steps - 1)
    (hrec : ∀ j, G i j = (1 / cc) * (qu * G (i + 1) j + qd * G (i + 1) (j + 1)))
    (t : Tree ℝ) (hband : bandPopulated steps G (i + 1) (steps - 1) t) :
    ∃ t', backwardLevel cc qu qd t i = .ok t' ∧
      bandPopulated steps G i (steps - 1) t' := by
  obtain ⟨hht, hlent, hcells⟩ := hband
  have hwf : Tree.WF t := bandPopulated_WF ⟨hht, hlent, hcells⟩
  have hilt : i < steps := by omega
  obtain ⟨t', hrun, hh', hl', _, hfr, hval⟩ :=
    writeLoop_spec i
      (fun t' jm => do
        let a ← t'.get_node ((i : Int) + 1) (jm : Int)
        let b ← t'.get_node ((i : Int) + 1) ((jm : Int) + 1)
        pure ((1 / cc) * (qu * a + qd * b)))
      (fun jm => G i jm)
      t hwf (by rw [hht]; exact_mod_cast hilt)
      (List.range (i + 1))
      (by
        intro t' hh'' hl'' hagree' jm hjm
        have hjmle : jm ≤ i := by
          have := List.mem_range.mp hjm
          omega
        have hcast1 : ((i : Int) + 1) = ((i + 1 : Nat) : Int) := by omega
        have hreadA : t'.nodes.get? (flatIdx (i + 1) jm) = some (G (i + 1) jm) := by
          rw [hagree' _ (by
            intro j'' hj''
            have hj''le : j'' ≤ i := by
              have := List.mem_range.mp hj''
              omega
            have h1 : flatIdx i j'' < tri (i + 1) := flatIdx_lt_tri hj''le (by omega)
            have h2 : tri (i + 1) ≤ flatIdx (i + 1) jm := Nat.le_add_right _ _
            omega)]
          exact hcells (i + 1) jm (by omega) (by omega) (by omega)
        have hreadB : t'.nodes.get? (flatIdx (i + 1) (jm + 1)) =
            some (G (i + 1) (jm + 1)) := by
          rw [hagree' _ (by
            intro j'' hj''
            have hj''le : j'' ≤ i := by
              have := List.mem_range.mp hj''
              omega
            have h1 : flatIdx i j'' < tri (i + 1) := flatIdx_lt_tri hj''le (by omega)
            have h2 : tri (i + 1) ≤ flatIdx (i + 1) (jm + 1) := Nat.le_add_right _ _
            omega)]
          exact hcells (i + 1) (jm + 1) (by omega) (by omega) (by omega)
        have hgnA : t'.get_node ((i : Int) + 1) (jm : Int) = .ok (G (i + 1) jm) := by
          rw [hcast1]
          exact Tree.get_node_ok t' (by omega) hreadA
        have hgnB : t'.get_node ((i : Int) + 1) ((jm : Int) + 1) =
            .ok (G (i + 1) (jm + 1)) := by
          rw [hcast1, show ((jm : Int) + 1) = ((jm + 1 : Nat) : Int) from by omega]
          exact Tree.get_node_ok t' (by omega) hreadB
        show (do
          let a ← t'.get_node ((i : Int) + 1) (jm : Int)
          let b ← t'.get_node ((i : Int) + 1) ((jm : Int) + 1)
          pure ((1 / cc) * (qu * a + qd * b)) : Except String ℝ) = .ok (G i jm)
        rw [hgnA, hgnB]
        show Except.ok ((1 / cc) * (qu * G (i + 1) jm + qd * G (i + 1) (jm + 1))) = _
        rw [← hrec jm])
      (List.range (i + 1)) (List.nodup_range _)
      (fun jm hjm => ⟨hjm, by
        have := List.mem_range.mp hjm
        omega⟩)
      t rfl rfl (fun _ _ => rfl)
  refine ⟨t', hrun, ⟨by rw [hh', hht], by rw [hl']; exact hlent, ?_⟩⟩
  intro ℓ j hiℓ hℓ hjℓ
  rcases Nat.eq_or_lt_of_le hiℓ with hcase | hcase
  · subst hcase
    rw [hval j (List.mem_range.mpr (by omega))]
  · rw [hfr _ (by
      intro j'' hj''
      have hj''le : j'' ≤ i := by
        have := List.mem_range.mp hj''
        omega
      have h1 : flatIdx i j'' < tri (i + 1) := flatIdx_lt_tri hj''le (by omega)
      have h2 : tri (i + 1) ≤ tri ℓ := tri_le_tri (by omega)
      have h3 : tri ℓ ≤ flatIdx ℓ j := Nat.le_add_right _ _
      omega)]
    exact hcells ℓ j (by omega) hℓ hjℓ

/-- The backward induction over levels `m-1 .. 0` completes the band. -/
theorem backward_fold (cc qu qd : ℝ) (steps : Nat) (G : Nat → Nat → ℝ)
    (hsteps : 1 ≤ steps)
    (hrec : ∀ i j : Nat, i + 1 ≤ steps - 1 →
      G i j = (1 / cc) * (qu * G (i + 1) j + qd * G (i + 1) (j + 1))) :
    ∀ m : Nat, m ≤ steps - 1 →
    ∀ t : Tree ℝ, bandPopulated steps G m (steps - 1) t →
    ∃ t', ((List.range m).reverse).foldlM (backwardLevel cc qu qd) t = .ok t' ∧
      bandPopulated steps G 0 (steps - 1) t' := by
  intro m
  induction m with
  | zero =>
    intro _ t hband
    exact ⟨t, rfl, hband⟩
  | succ m ih =>
    intro hm t hband
    have hlist : (List.range (m + 1)).reverse = m :: (List.range m).reverse := by
      rw [List.range_succ, List.reverse_append]
      rfl
    obtain ⟨t1, hrun1, hband1⟩ := backwardLevel_spec cc qu qd steps G m hsteps hm
      (fun j => hrec m j hm) t hband
    obtain ⟨t', hrun', hband'⟩ := ih (by omega) t1 hband1
    refine ⟨t', ?_, hband'⟩
    rw [hlist, List.foldlM_cons, hrun1, bindOk]
    exact hrun'

/-- The whole lattice build: for `steps ≥ 1` it succeeds and returns a stock
tree populated with the recombining prices on levels `0 .. steps−1` and a
value tree populated with the backward-induction values there. -/
theorem binomBuild_spec (S K : ℝ) (f : ℝ → ℝ → ℝ) (u d cc qu qd : ℝ)
    (steps : Nat) (hsteps : 1 ≤ steps) :
    ∃ st vt, binomBuild S K f u d cc qu qd steps = .ok (st, vt) ∧
      bandPopulated steps (stockPrice S u d) 0 (steps - 1) st ∧
      bandPopulated steps
        (valueNode f K cc qu qd (stockPrice S u d) (steps - 1)) 0 (steps - 1) vt := by
  have htri1 : 1 ≤ tri steps := by
    have h := tri_le_tri hsteps
    simpa [tri] using h
  have hp : steps - 1 + 1 = steps := by omega
  have htris : tri (steps - 1) + steps = tri steps := by
    conv_rhs => rw [← hp, tri_succ]
    omega
  -- stage 1: the stock tree allocation
  have hinit := Tree.init_eq ((steps : Nat) : Int) (0 : ℝ) (by positivity)
  simp only [Int.toNat_natCast] at hinit
  -- stage 2: the root write
  have hset1 := Tree.set_node_ok
    (⟨(steps : Int), List.replicate (tri steps) (0 : ℝ)⟩ : Tree ℝ) S
    (Nat.le_refl 0) (by simpa using htri1)
  simp only [Nat.cast_zero] at hset1
  -- stage 3: the root band
  have hband1 : bandPopulated steps (stockPrice S u d) 0 0
      (⟨(steps : Int),
        (List.replicate (tri steps) (0 : ℝ)).set (flatIdx 0 0) S⟩ : Tree ℝ) := by
    refine ⟨rfl, by simp, ?_⟩
    intro ℓ j _ hℓ hj
    have hℓ0 : ℓ = 0 := Nat.le_zero.mp hℓ
    subst hℓ0
    have hj0 : j = 0 := Nat.le_zero.mp hj
    subst hj0
    rw [get?_set_self (by simpa using htri1)]
    rfl
  -- stage 4: the forward pass
  obtain ⟨st, hrunF, hbandSt⟩ := forward_fold u d S steps hsteps (steps - 1) 1
    (Nat.le_refl 1) (by omega) _ hband1
  rw [show 1 + (steps - 1) - 1 = steps - 1 from by omega] at hbandSt
  have hwfSt : Tree.WF st := bandPopulated_WF hbandSt
  -- stage 5: the terminal level read
  have hlvl := Tree.get_level_ok hwfSt steps (by rw [hbandSt.1])
  have hlvlen : (pySlice st.nodes (tri (steps - 1)) (tri steps)).length = steps := by
    simp only [pySlice, List.length_drop, List.length_take, hbandSt.2.1]
    omega
  -- stage 6: the terminal payoff layer
  obtain ⟨vt1, hrunT, hhT, hlT, _, _, hvalT⟩ :=
    writeLoop_spec (steps - 1)
      (fun _ i => do
        let p ← st.get_node ((steps : Int) - 1) (i : Int)
        pure (f p K))
      (fun j => f (stockPrice S u d (steps - 1) j) K)
      (⟨(steps : Int), List.replicate (tri steps) (0 : ℝ)⟩ : Tree ℝ)
      ⟨by positivity, by simp⟩
      (by
        show ((steps - 1 : Nat) : Int) < ((steps : Nat) : Int)
        exact_mod_cast (by omega : steps - 1 < steps))
      (List.range steps)
      (by
        intro t' _ _ _ jj hjj
        have hjle : jj ≤ steps - 1 := by
          have := List.mem_range.mp hjj
          omega
        have hgn : st.get_node ((steps : Int) - 1) (jj : Int) =
            .ok (stockPrice S u d (steps - 1) jj) := by
          rw [show ((steps : Int) - 1) = ((steps - 1 : Nat) : Int) from by omega]
          exact Tree.get_node_ok st hjle
            (hbandSt.2.2 (steps - 1) jj (by omega) (by omega) hjle)
        show (do
          let p ← st.get_node ((steps : Int) - 1) (jj : Int)
          pure (f p K) : Except String ℝ) = .ok (f (stockPrice S u d (steps - 1) jj) K)
        rw [hgn]
        rfl)
      (List.range steps) (List.nodup_range _)
      (fun jj hjj => ⟨hjj, by
        have := List.mem_range.mp hjj
        omega⟩)
      _ rfl rfl (fun _ _ => rfl)
  have hbandT : bandPopulated steps
      (valueNode f K cc qu qd (stockPrice S u d) (steps - 1))
      (steps - 1) (steps - 1) vt1 := by
    refine ⟨by rw [hhT], by rw [hlT]; simp, ?_⟩
    intro ℓ j hloℓ hℓ hj
    have hℓeq : ℓ = steps - 1 := le_antisymm hℓ hloℓ
    subst hℓeq
    rw [hvalT j (List.mem_range.mpr (by omega))]
    rw [valueNode_terminal]
  -- stage 7: the backward induction
  obtain ⟨vt, hrunB, hbandVt⟩ :=
    backward_fold cc qu qd steps
      (valueNode f K cc qu qd (stockPrice S u d) (steps - 1)) hsteps
      (fun i j hij => valueNode_rec f K cc qu qd (stockPrice S u d) (steps - 1) j
        (by omega))
      (steps - 1) (Nat.le_refl _) vt1 hbandT
  -- stage 8: assemble the run
  refine ⟨st, vt, ?_, hbandSt, hbandVt⟩
  unfold binomBuild
  simp only [hinit, bindOk, hset1, hrunF, hlvl, hlvlen, hrunT, hrunB]
  rfl

/-- C4: `binom_option` builds the price lattice with `node(0,0) = S`,
`node(i,0) = node(i−1,0)·u` and `node(i,j) = node(i−1,j−1)·d` (levels
`1 .. steps−1`); sets terminal values `value(steps−1, j) = f(price(steps−1,
j), K)`; fills earlier levels with the pure discounted risk-neutral
expectation `value(i,j) = (1/exp(r·dt))·(q_u·value(i+1,j) + q_d·value(i+1,
j+1))` with `dt = N/steps`, `u = exp(σ·√dt)`, `d = 1/u`,
`q_u = (exp((r−q)·dt) − d)/(u − d)`, applying no early-exercise comparison;
the root `value(0,0)` of the returned value tree is the fair value. -/
theorem c4_binom_lattice (S K : ℝ) (f : ℝ → ℝ → ℝ) (r q sigma : ℝ)
    (N steps : Nat) (hsteps : 1 ≤ steps) (dt u d cc qu qd : ℝ)
    (hdt : dt = (N : ℝ) / (steps : ℝ))
    (hu : u = Real.exp (sigma * Real.sqrt dt))
    (hd : d = 1 / u)
    (hcc : cc = Real.exp (r * dt))
    (hqu : qu = (Real.exp ((r - q) * dt) - d) / (u - d))
    (hqd : qd = 1 - qu) :
    ∃ st vt, binom_option ⟨S, K, f⟩ r q sigma N steps = .ok (st, vt) ∧
      (∀ i j : Nat, j ≤ i → i ≤ steps - 1 →
        st.get_node (i : Int) (j : Int) = .ok (stockPrice S u d i j)) ∧
      (∀ j : Nat, j ≤ steps - 1 →
        vt.get_node ((steps : Int) - 1) (j : Int) =
          .ok (f (stockPrice S u d (steps - 1) j) K)) ∧
      (∀ i j : Nat, j ≤ i → i ≤ steps - 1 →
        vt.get_node (i : Int) (j : Int) =
          .ok (valueNode f K cc qu qd (stockPrice S u d) (steps - 1) i j)) := by
  subst hdt hu hd hcc hqu hqd
  obtain ⟨st, vt, hrun, hbs, hbv⟩ := binomBuild_spec S K f
    (Real.exp (sigma * Real.sqrt ((N : ℝ) / (steps : ℝ))))
    (1 / Real.exp (sigma * Real.sqrt ((N : ℝ) / (steps : ℝ))))
    (Real.exp (r * ((N : ℝ) / (steps : ℝ))))
    ((Real.exp ((r - q) * ((N : ℝ) / (steps : ℝ))) -
        1 / Real.exp (sigma * Real.sqrt ((N : ℝ) / (steps : ℝ)))) /
      (Real.exp (sigma * Real.sqrt ((N : ℝ) / (steps : ℝ))) -
        1 / Real.exp (sigma * Real.sqrt ((N : ℝ) / (steps : ℝ)))))
    (1 - (Real.exp ((r - q) * ((N : ℝ) / (steps : ℝ))) -
        1 / Real.exp (sigma * Real.sqrt ((N : ℝ) / (steps : ℝ)))) /
      (Real.exp (sigma * Real.sqrt ((N : ℝ) / (steps : ℝ))) -
        1 / Real.exp (sigma * Real.sqrt ((N : ℝ) / (steps : ℝ)))))
    steps hsteps
  refine ⟨st, vt, hrun, ?_, ?_, ?_⟩
  · intro i j hj hi
    exact Tree.get_node_ok st hj (hbs.2.2 i j (by omega) hi hj)
  · intro j hj
    rw [show ((steps : Int) - 1) = ((steps - 1 : Nat) : Int) from by omega]
    rw [Tree.get_node_ok vt hj (hbv.2.2 (steps - 1) j (by omega) (by omega) hj)]
    rw [valueNode_terminal]
  · intro i j hj hi
    exact Tree.get_node_ok vt hj (hbv.2.2 i j (by omega) hi hj)

/-- C4 witness: the theorem applied at `S = K = 1`, payoff `p − k`, zero
rates and volatility, `N = 1`, `steps = 2`, with the derived constants
instantiated by their defining formulas. -/
theorem c4_binom_lattice_witness :
    ((1 : Nat) ≤ 2 ∧
      ((1 : ℝ) / (2 : ℝ) : ℝ) = ((1 : Nat) : ℝ) / ((2 : Nat) : ℝ)) ∧
    (∃ st vt, binom_option ⟨1, 1, fun p k => p - k⟩ 0 0 0 1 2 = .ok (st, vt) ∧
      (∀ i j : Nat, j ≤ i → i ≤ 2 - 1 →
        st.get_node (i : Int) (j : Int) =
          .ok (stockPrice 1 (Real.exp (0 * Real.sqrt ((1 : ℝ) / (2 : ℝ))))
            (1 / Real.exp (0 * Real.sqrt ((1 : ℝ) / (2 : ℝ)))) i j)) ∧
      (∀ j : Nat, j ≤ 2 - 1 →
        vt.get_node ((2 : Int) - 1) (j : Int) =
          .ok ((fun p k => p - k)
            (stockPrice 1 (Real.exp (0 * Real.sqrt ((1 : ℝ) / (2 : ℝ))))
              (1 / Real.exp (0 * Real.sqrt ((1 : ℝ) / (2 : ℝ)))) (2 - 1) j) 1)) ∧
      (∀ i j : Nat, j ≤ i → i ≤ 2 - 1 →
        vt.get_node (i : Int) (j : Int) =
          .ok (valueNode (fun p k => p - k) 1 (Real.exp (0 * ((1 : ℝ) / (2 : ℝ))))
            ((Real.exp ((0 - 0) * ((1 : ℝ) / (2 : ℝ))) -
                1 / Real.exp (0 * Real.sqrt ((1 : ℝ) / (2 : ℝ)))) /
              (Real.exp (0 * Real.sqrt ((1 : ℝ) / (2 : ℝ))) -
                1 / Real.exp (0 * Real.sqrt ((1 : ℝ) / (2 : ℝ)))))
            (1 - (Real.exp ((0 - 0) * ((1 : ℝ) / (2 : ℝ))) -
                1 / Real.exp (0 * Real.sqrt ((1 : ℝ) / (2 : ℝ)))) /
              (Real.exp (0 * Real.sqrt ((1 : ℝ) / (2 : ℝ))) -
                1 / Real.exp (0 * Real.sqrt ((1 : ℝ) / (2 : ℝ)))))
            (stockPrice 1 (Real.exp (0 * Real.sqrt ((1 : ℝ) / (2 : ℝ))))
              (1 / Real.exp (0 * Real.sqrt ((1 : ℝ) / (2 : ℝ)))))
            (2 - 1) i j))) :=
  ⟨⟨by decide, by norm_num⟩,
    c4_binom_lattice 1 1 (fun p k => p - k) 0 0 0 1 2 (by decide)
      ((1 : ℝ) / (2 : ℝ))
      (Real.exp (0 * Real.sqrt ((1 : ℝ) / (2 : ℝ))))
      (1 / Real.exp (0 * Real.sqrt ((1 : ℝ) / (2 : ℝ))))
      (Real.exp (0 * ((1 : ℝ) / (2 : ℝ))))
      ((Real.exp ((0 - 0) * ((1 : ℝ) / (2 : ℝ))) -
          1 / Real.exp (0 * Real.sqrt ((1 : ℝ) / (2 : ℝ)))) /
        (Real.exp (0 * Real.sqrt ((1 : ℝ) / (2 : ℝ))) -
          1 / Real.exp (0 * Real.sqrt ((1 : ℝ) / (2 : ℝ)))))
      (1 - (Real.exp ((0 - 0) * ((1 : ℝ) / (2 : ℝ))) -
          1 / Real.exp (0 * Real.sqrt ((1 : ℝ) / (2 : ℝ)))) /
        (Real.exp (0 * Real.sqrt ((1 : ℝ) / (2 : ℝ))) -
          1 / Real.exp (0 * Real.sqrt ((1 : ℝ) / (2 : ℝ)))))
      (by norm_num) rfl rfl rfl rfl rfl⟩

/-! ### Theorems: `npv` (claim C5) -/

theorem addVec_getD {a b : List ℝ} {n p : Nat} (ha : a.length = n)
    (hb : b.length = n) (hp : p < n) :
    (addVec a b).getD p 0 = a.getD p 0 + b.getD p 0 := by
  have hl : (addVec a b).length = n := by simp [addVec, ha, hb]
  rw [List.getD_eq_getElem _ _ (by omega : p < (addVec a b).length),
    List.getD_eq_getElem _ _ (by omega : p < a.length),
    List.getD_eq_getElem _ _ (by omega : p < b.length)]
  simp [addVec, List.getElem_zipWith]

/-- The accumulating fold of `npv`, characterized pointwise: starting from
accumulator `acc` and step factor `f`, path `p` ends at
`acc[p] + Σₖ cfm[k][p] · f · es^k`. -/
theorem npv_fold_spec (es : ℝ) (n : Nat) (cfm : List (List ℝ))
    (hrect : ∀ row ∈ cfm, row.length = n) :
    ∀ (acc : List ℝ) (f : ℝ), acc.length = n →
      ((cfm.foldl (fun (a : List ℝ × ℝ) cfs =>
          (addVec a.1 (cfs.map (fun x => x * a.2)), a.2 * es)) (acc, f)).1.length = n ∧
        ∀ p : Nat, p < n →
          (cfm.foldl (fun (a : List ℝ × ℝ) cfs =>
            (addVec a.1 (cfs.map (fun x => x * a.2)), a.2 * es)) (acc, f)).1.getD p 0 =
            acc.getD p 0 + ∑ k ∈ Finset.range cfm.length,
              ((cfm.getD k []).getD p 0) * (f * es ^ k)) := by
  induction cfm with
  | nil =>
    intro acc f hacc
    exact ⟨hacc, by simp⟩
  | cons v rest ih =>
    intro acc f hacc
    have hv : v.length = n := hrect v (by simp)
    have hrest : ∀ row ∈ rest, row.length = n := fun row hr => hrect row (by simp [hr])
    have hmap : (v.map (fun x => x * f)).length = n := by simp [hv]
    have hacc' : (addVec acc (v.map (fun x => x * f))).length = n := by
      simp [addVec, hacc, hmap]
    simp only [List.foldl_cons]
    obtain ⟨hlen, hval⟩ := (ih hrest) (addVec acc (v.map (fun x => x * f))) (f * es) hacc'
    refine ⟨hlen, fun p hp => ?_⟩
    rw [hval p hp, addVec_getD hacc hmap hp]
    have hmapg : (v.map (fun x => x * f)).getD p 0 = v.getD p 0 * f := by
      rw [List.getD_eq_getElem _ _ (by omega : p < (v.map (fun x => x * f)).length),
        List.getD_eq_getElem _ _ (by omega : p < v.length)]
      simp
    rw [hmapg, List.length_cons, Finset.sum_range_succ']
    simp only [List.getD_cons_succ, List.getD_cons_zero]
    have hsum : ∑ k ∈ Finset.range rest.length,
        (rest.getD k []).getD p 0 * (f * es * es ^ k) =
        ∑ k ∈ Finset.range rest.length,
          (rest.getD k []).getD p 0 * (f * es ^ (k + 1)) :=
      Finset.sum_congr rfl fun k _ => by ring
    rw [hsum]
    ring

theorem specDiscountedTotals_length (cfm : List (List ℝ)) (rate : ℝ) (n : Nat) :
    (specDiscountedTotals cfm rate n).length = n := by
  simp [specDiscountedTotals]

theorem specDiscountedTotals_getD (cfm : List (List ℝ)) (rate : ℝ) {n p : Nat}
    (hp : p < n) :
    (specDiscountedTotals cfm rate n).getD p 0 =
      ∑ k ∈ Finset.range cfm.length,
        ((cfm.getD k []).getD p 0) * Real.exp (-rate) ^ (k + 1) := by
  unfold specDiscountedTotals
  rw [List.getD_eq_getElem _ _ (by simpa using hp)]
  simp

/-- C5: `npv` multiplies the k-th stored vector (k = 1, 2, …) by
`exp(-rate)` to the k-th power, returns the discounted per-path totals summed
and divided by the path count as the price, and the sample standard deviation
of those totals divided by `√(path count)` as the standard error. -/
theorem c5_npv_discounting (cfm : List (List ℝ)) (rate : ℝ) (n : Nat)
    (hne : cfm ≠ []) (hrect : ∀ row ∈ cfm, row.length = n) :
    npv cfm rate =
      ((specDiscountedTotals cfm rate n).sum / (n : ℝ),
        Real.sqrt (((specDiscountedTotals cfm rate n).map
            (fun x => (x - (specDiscountedTotals cfm rate n).sum / (n : ℝ)) ^ 2)).sum /
          ((n : ℝ) - 1)) / Real.sqrt (n : ℝ)) := by
  have hhead : (cfm.headD []).length = n := by
    rcases cfm with _ | ⟨v, rest⟩
    · exact absurd rfl hne
    · exact hrect v (by simp)
  obtain ⟨hlen, hval⟩ := npv_fold_spec (Real.exp (-rate)) n cfm hrect
    (List.replicate (cfm.headD []).length (0 : ℝ)) (Real.exp (-rate))
    (by simpa using hhead)
  have hlen2 : (npvTotals cfm rate).length = n := by
    unfold npvTotals
    exact hlen
  have hDspec : npvTotals cfm rate = specDiscountedTotals cfm rate n := by
    refine List.ext_getElem (by rw [hlen2, specDiscountedTotals_length]) ?_
    intro p hp1 hp2
    have hp : p < n := by
      rwa [specDiscountedTotals_length] at hp2
    have h1 : (npvTotals cfm rate).getD p 0 =
        (List.replicate (cfm.headD []).length (0 : ℝ)).getD p 0 +
          ∑ k ∈ Finset.range cfm.length,
            ((cfm.getD k []).getD p 0) * (Real.exp (-rate) * Real.exp (-rate) ^ k) := by
      unfold npvTotals
      exact hval p hp
    have h2 := specDiscountedTotals_getD cfm rate hp
    rw [← List.getD_eq_getElem (npvTotals cfm rate) 0 hp1,
      ← List.getD_eq_getElem (specDiscountedTotals cfm rate n) 0 hp2, h1, h2]
    have hrep : (List.replicate (cfm.headD []).length (0 : ℝ)).getD p 0 = 0 := by
      rw [List.getD_eq_getElem _ _ (by rw [List.length_replicate, hhead]; exact hp)]
      simp
    rw [hrep]
    have hterm : ∀ k, ((cfm.getD k []).getD p 0) *
        (Real.exp (-rate) * Real.exp (-rate) ^ k) =
        ((cfm.getD k []).getD p 0) * Real.exp (-rate) ^ (k + 1) := fun k => by ring
    rw [Finset.sum_congr rfl fun k _ => hterm k]
    ring
  unfold npv
  rw [hDspec, hhead]
  unfold sem sampleVariance vmean
  rw [specDiscountedTotals_length]

/-- C5 witness: applied to the concrete two-step, one-path matrix `[[1],[2]]`. -/
theorem c5_npv_discounting_witness :
    (([[1], [2]] : List (List ℝ)) ≠ [] ∧
      ∀ row ∈ ([[1], [2]] : List (List ℝ)), row.length = 1) ∧
    npv [[1], [2]] 0 =
      ((specDiscountedTotals [[1], [2]] 0 1).sum / ((1 : Nat) : ℝ),
        Real.sqrt (((specDiscountedTotals [[1], [2]] 0 1).map
            (fun x => (x - (specDiscountedTotals [[1], [2]] 0 1).sum / ((1 : Nat) : ℝ)) ^ 2)).sum /
          (((1 : Nat) : ℝ) - 1)) / Real.sqrt ((1 : Nat) : ℝ)) :=
  ⟨⟨by simp, by intro row hr; rcases (by simpa using hr : row = [1] ∨ row = [2]) with h | h <;> simp [h]⟩,
    c5_npv_discounting [[1], [2]] 0 1 (by simp)
      (by intro row hr; rcases (by simpa using hr : row = [1] ∨ row = [2]) with h | h <;> simp [h])⟩

/-! ### Theorems: mask, selection and scatter helpers for `lsm` -/

theorem mem_maskIdx {mask : List Bool} {p : Nat} :
    p ∈ maskIdx mask ↔ mask.get? p = some true := by
  induction mask generalizing p with
  | nil => simp [maskIdx]
  | cons b rest ih =>
    cases p with
    | zero =>
      cases b <;> simp [maskIdx, ih]
    | succ q =>
      cases b <;> simp [maskIdx, ih]

theorem mem_maskIdx_lt {mask : List Bool} {p : Nat} (h : p ∈ maskIdx mask) :
    p < mask.length := by
  have h' := mem_maskIdx.mp h
  by_contra hc
  rw [List.get?_eq_getElem?, List.getElem?_eq_none (by omega)] at h'
  exact absurd h' (by simp)

theorem maskIdx_nodup (mask : List Bool) : (maskIdx mask).Nodup := by
  induction mask with
  | nil => simp [maskIdx]
  | cons b rest ih =>
    have hmap : ((maskIdx rest).map (· + 1)).Nodup :=
      ih.map (fun a b h => by omega)
    cases b <;> simp [maskIdx, hmap]

theorem selectMask_cons (x : α) (xs : List α) (b : Bool) (bs : List Bool) :
    selectMask (x :: xs) (b :: bs) =
      if b then x :: selectMask xs bs else selectMask xs bs := by
  cases b <;> simp [selectMask]

theorem selectMask_nil_left (mask : List Bool) :
    selectMask ([] : List α) mask = [] := by
  simp [selectMask]

theorem selectMask_nil_right (xs : List α) :
    selectMask xs ([] : List Bool) = [] := by
  simp [selectMask]

theorem selectMask_eq_map_getD (d : α) :
    ∀ (xs : List α) (mask : List Bool), xs.length = mask.length →
      selectMask xs mask = (maskIdx mask).map (fun p => xs.getD p d) := by
  intro xs
  induction xs with
  | nil =>
    intro mask hlen
    have : mask = [] := List.length_eq_zero.mp (by simpa using hlen.symm)
    subst this
    simp [selectMask, maskIdx]
  | cons x xs ih =>
    intro mask hlen
    cases mask with
    | nil => simp at hlen
    | cons b bs =>
      rw [selectMask_cons]
      have hlen' : xs.length = bs.length := by simpa using hlen
      cases b with
      | true =>
        simp only [maskIdx, if_pos, List.map_cons, List.map_map]
        rw [ih bs hlen']
        simp [Function.comp]
      | false =>
        simp only [maskIdx, if_neg, List.map_map]
        rw [ih bs hlen']
        simp [Function.comp]

theorem selectMask_length :
    ∀ (xs : List α) (mask : List Bool), xs.length = mask.length →
      (selectMask xs mask).length = (maskIdx mask).length := by
  intro xs
  induction xs with
  | nil =>
    intro mask hlen
    have : mask = [] := List.length_eq_zero.mp (by simpa using hlen.symm)
    subst this
    simp [selectMask, maskIdx]
  | cons x xs ih =>
    intro mask hlen
    cases mask with
    | nil => simp at hlen
    | cons b bs =>
      rw [selectMask_cons]
      have hlen' : xs.length = bs.length := by simpa using hlen
      cases b <;> simp [maskIdx, ih bs hlen']

theorem mem_selectMask_iff {x : α} :
    ∀ {xs : List α} {mask : List Bool},
      (x ∈ selectMask xs mask ↔
        ∃ r : Nat, xs.get? r = some x ∧ mask.get? r = some true) := by
  intro xs
  induction xs with
  | nil =>
    intro mask
    simp [selectMask]
  | cons y ys ih =>
    intro mask
    cases mask with
    | nil => simp [selectMask]
    | cons b bs =>
      rw [selectMask_cons]
      cases b with
      | true =>
        simp only [if_pos]
        constructor
        · intro hx
          rcases List.mem_cons.mp hx with rfl | hx
          · exact ⟨0, rfl, rfl⟩
          · obtain ⟨r, h1, h2⟩ := ih.mp hx
            exact ⟨r + 1, by simpa using h1, by simpa using h2⟩
        · rintro ⟨r, h1, h2⟩
          cases r with
          | zero =>
            have : y = x := by simpa using h1
            subst this
            exact List.mem_cons_self _ _
          | succ q =>
            exact List.mem_cons_of_mem _ (ih.mpr ⟨q, by simpa using h1, by simpa using h2⟩)
      | false =>
        simp only [if_neg, Bool.false_eq_true, not_false_iff]
        constructor
        · intro hx
          obtain ⟨r, h1, h2⟩ := ih.mp hx
          exact ⟨r + 1, by simpa using h1, by simpa using h2⟩
        · rintro ⟨r, h1, h2⟩
          cases r with
          | zero => simp at h2
          | succ q =>
            exact ih.mpr ⟨q, by simpa using h1, by simpa using h2⟩

theorem scatterFrom_length (base src : List α) (idxs : List Nat) :
    (scatterFrom base src idxs).length = base.length := by
  simp [scatterFrom]

theorem scatterFrom_get? (base src : List α) (idxs : List Nat) (p : Nat) :
    (scatterFrom base src idxs).get? p =
      (base.get? p).map (fun v => if p ∈ idxs then src.getD p v else v) := by
  simp only [scatterFrom, List.get?_eq_getElem?, List.getElem?_map,
    List.getElem?_enum]
  rw [Option.map_map]
  cases hb : base[p]? <;> rfl

theorem zeroMask_get? {α : Type} [Zero α] (vec : List α) (stopped : List Bool)
    (p : Nat) :
    (zeroMask vec stopped).get? p =
      match vec.get? p, stopped.get? p with
      | some v, some b => some (if b then 0 else v)
      | _, _ => none := by
  simp only [zeroMask, List.get?_eq_getElem?, List.getElem?_map,
    List.zip_eq_zipWith, List.getElem?_zipWith]
  cases hv : vec[p]? <;> cases hs : stopped[p]? <;> rfl

theorem zeroMask_length {α : Type} [Zero α] (vec : List α) (stopped : List Bool) :
    (zeroMask vec stopped).length = min vec.length stopped.length := by
  simp [zeroMask]

theorem selectInMoney_cons {α : Type} [LinearOrderedField α] (c x : α)
    (cs xs : List α) :
    selectInMoney (c :: cs) (x :: xs) =
      if (0 : α) < c then x :: selectInMoney cs xs else selectInMoney cs xs := by
  by_cases hc : (0 : α) < c <;> simp [selectInMoney, List.filter_cons, hc]

theorem selectMask_map_lt {α : Type} [LinearOrderedField α] :
    ∀ (xs civ : List α), xs.length = civ.length →
      selectMask xs (civ.map (fun x => decide ((0 : α) < x))) =
        selectInMoney civ xs := by
  intro xs
  induction xs with
  | nil =>
    intro civ _
    simp [selectMask, selectInMoney]
  | cons x xs ih =>
    intro civ hlen
    cases civ with
    | nil => simp at hlen
    | cons c cs =>
      have hlen' : xs.length = cs.length := by simpa using hlen
      rw [List.map_cons, selectMask_cons, selectInMoney_cons, ih cs hlen']
      by_cases hc : (0 : α) < c <;> simp [hc]

theorem enumFrom_one_eq_map {α : Type} (cs : List α) :
    List.enumFrom 1 cs = cs.enum.map (Prod.map (· + 1) id) := by
  rw [List.enumFrom_eq_zip_range', List.enum_eq_zip_range,
    List.range'_eq_map_range, ← List.zip_map_left]
  congr 1
  refine List.map_congr_left ?_
  intro a _
  omega

theorem inMoneyPositions_cons {α : Type} [LinearOrderedField α] (c : α)
    (cs : List α) :
    inMoneyPositions (c :: cs) =
      if (0 : α) < c then 0 :: (inMoneyPositions cs).map (· + 1)
      else (inMoneyPositions cs).map (· + 1) := by
  unfold inMoneyPositions
  rw [List.enum_cons, enumFrom_one_eq_map, List.filter_cons, List.filter_map]
  have hq : ((fun p : Nat × α => decide ((0 : α) < p.2)) ∘ Prod.map (· + 1) id) =
      (fun p : Nat × α => decide ((0 : α) < p.2)) := rfl
  have hf : ((fun p : Nat × α => p.1) ∘ Prod.map (· + 1) id) =
      ((· + 1) ∘ (fun p : Nat × α => p.1)) := rfl
  by_cases hc : (0 : α) < c
  · rw [if_pos (by simpa), if_pos hc]
    simp [List.map_map, hq, hf]
  · rw [if_neg (by simp only [decide_eq_true_eq]; exact hc), if_neg hc]
    simp [List.map_map, hq, hf]

theorem maskIdx_map_lt {α : Type} [LinearOrderedField α] (civ : List α) :
    maskIdx (civ.map (fun x => decide ((0 : α) < x))) = inMoneyPositions civ := by
  induction civ with
  | nil => simp [maskIdx, inMoneyPositions]
  | cons c cs ih =>
    rw [List.map_cons, inMoneyPositions_cons]
    by_cases hc : (0 : α) < c <;> simp [maskIdx, hc, ih]

theorem mem_inMoneyPositions {α : Type} [LinearOrderedField α] {civ : List α}
    {p : Nat} :
    p ∈ inMoneyPositions civ ↔ ∃ v, civ.get? p = some v ∧ 0 < v := by
  rw [← maskIdx_map_lt, mem_maskIdx, List.get?_map]
  cases hv : civ.get? p <;> simp

theorem inMoneyPositions_nodup {α : Type} [LinearOrderedField α] (civ : List α) :
    (inMoneyPositions civ).Nodup := by
  rw [← maskIdx_map_lt]
  exact maskIdx_nodup _

/-- The running per-path addition `realized += vec` over a list of vectors. -/
theorem sumFold_spec {α : Type} [LinearOrderedField α] (n : Nat) :
    ∀ (vs : List (List α)), (∀ v ∈ vs, v.length = n) →
    ∀ acc : List α, acc.length = n →
      ((vs.foldl (fun a v => List.zipWith (· + ·) a v) acc).length = n ∧
        ∀ p : Nat, p < n →
          (vs.foldl (fun a v => List.zipWith (· + ·) a v) acc).getD p 0 =
            acc.getD p 0 + (vs.map (fun v => v.getD p 0)).sum) := by
  intro vs
  induction vs with
  | nil =>
    intro _ acc hacc
    exact ⟨hacc, by simp⟩
  | cons v rest ih =>
    intro hvs acc hacc
    have hv : v.length = n := hvs v (by simp)
    have hrest : ∀ w ∈ rest, w.length = n := fun w hw => hvs w (by simp [hw])
    have hacc' : (List.zipWith (· + ·) acc v).length = n := by
      simp [hacc, hv]
    simp only [List.foldl_cons]
    obtain ⟨hlen, hval⟩ := ih hrest (List.zipWith (· + ·) acc v) hacc'
    refine ⟨hlen, fun p hp => ?_⟩
    rw [hval p hp]
    have hz : (List.zipWith (· + ·) acc v).getD p 0 = acc.getD p 0 + v.getD p 0 := by
      rw [List.getD_eq_getElem _ _ (by omega : p < (List.zipWith (· + ·) acc v).length),
        List.getD_eq_getElem _ _ (by omega : p < acc.length),
        List.getD_eq_getElem _ _ (by omega : p < v.length)]
      simp [List.getElem_zipWith]
    rw [hz, List.map_cons, List.sum_cons]
    ring

theorem add_cash_flows_fst {α : Type} [LinearOrderedField α]
    (cfs : List (List α)) (early : List α) :
    (add_cash_flows cfs early).1 =
      early :: cfs.map (fun vec =>
        zeroMask vec (early.map (fun x => decide ((0 : α) < x)))) := rfl

theorem add_cash_flows_snd {α : Type} [LinearOrderedField α]
    (cfs : List (List α)) (early : List α) :
    (add_cash_flows cfs early).2 =
      (cfs.map (fun vec =>
        zeroMask vec (early.map (fun x => decide ((0 : α) < x))))).foldl
        (fun acc vec => List.zipWith (· + ·) acc vec) early := rfl

/-- The realized vector returned by `add_cash_flows` is the per-path sum of
the returned cash-flow collection. -/
theorem add_cash_flows_realized {α : Type} [LinearOrderedField α]
    (cfs : List (List α)) (early : List α) (n : Nat) (hn : early.length = n)
    (hcfs : ∀ v ∈ cfs, v.length = n) :
    (add_cash_flows cfs early).2.length = n ∧
      ∀ p : Nat, p < n →
        (add_cash_flows cfs early).2.getD p 0 =
          (((add_cash_flows cfs early).1).map (fun vec => vec.getD p 0)).sum := by
  have hz : ∀ v ∈ cfs.map (fun vec =>
      zeroMask vec (early.map (fun x => decide ((0 : α) < x)))), v.length = n := by
    intro v hv
    obtain ⟨w, hw, rfl⟩ := List.mem_map.mp hv
    rw [zeroMask_length, hcfs w hw]
    simp [hn]
  obtain ⟨hlen, hval⟩ := sumFold_spec n _ hz early hn
  rw [add_cash_flows_snd]
  refine ⟨hlen, fun p hp => ?_⟩
  rw [hval p hp, add_cash_flows_fst, List.map_cons, List.sum_cons]

/-- The one-exercise counting step: if the incoming collection has at most
one nonzero entry at path `p`, and the new early vector is zero-or-positive
at `p`, then the outgoing collection still has at most one. -/
theorem add_cash_flows_countP {α : Type} [LinearOrderedField α]
    (cfs : List (List α)) (early : List α) (p : Nat)
    (hpos : ∀ v, early.get? p = some v → v ≠ 0 → 0 < v)
    (hc : cfs.countP (fun vec => decide (vec.getD p 0 ≠ 0)) ≤ 1) :
    (add_cash_flows cfs early).1.countP
      (fun vec => decide (vec.getD p 0 ≠ 0)) ≤ 1 := by
  rw [add_cash_flows_fst, List.countP_cons]
  by_cases he : early.getD p 0 ≠ 0
  · -- the early vector fires at p: every zeroed vector is 0 at p
    have hplt : p < early.length := by
      by_contra hcon
      rw [List.getD_eq_getElem?_getD, List.getElem?_eq_none (by omega)] at he
      exact he rfl
    obtain ⟨v, hvg⟩ : ∃ v, early.get? p = some v := by
      rw [List.get?_eq_getElem?]
      exact ⟨_, List.getElem?_eq_getElem hplt⟩
    have hvd : early.getD p 0 = v := by
      rw [List.getD_eq_getElem?_getD, ← List.get?_eq_getElem?, hvg]
      rfl
    have hvpos : 0 < v := hpos v hvg (by rw [← hvd]; exact he)
    have hstop : (early.map (fun x => decide ((0 : α) < x))).get? p = some true := by
      rw [List.get?_map, hvg]
      simp [hvpos]
    have hzero : ∀ w ∈ cfs,
        (zeroMask w (early.map (fun x => decide ((0 : α) < x)))).getD p 0 = 0 := by
      intro w _
      rw [List.getD_eq_getElem?_getD, ← List.get?_eq_getElem?, zeroMask_get?, hstop]
      cases hw : w.get? p with
      | none => rfl
      | some x => simp
    have hcount0 : (cfs.map (fun vec =>
        zeroMask vec (early.map (fun x => decide ((0 : α) < x))))).countP
        (fun vec => decide (vec.getD p 0 ≠ 0)) = 0 := by
      rw [List.countP_eq_zero]
      intro v hv
      obtain ⟨w, hw, rfl⟩ := List.mem_map.mp hv
      simp only [ne_eq, decide_eq_true_eq, not_not]
      exact hzero w hw
    rw [hcount0]
    split <;> omega
  · -- the early vector is silent at p: the zeroed counts cannot grow
    push_neg at he
    have hmono : (cfs.map (fun vec =>
        zeroMask vec (early.map (fun x => decide ((0 : α) < x))))).countP
        (fun vec => decide (vec.getD p 0 ≠ 0)) ≤
        cfs.countP (fun vec => decide (vec.getD p 0 ≠ 0)) := by
      rw [List.countP_map]
      refine List.countP_mono_left ?_
      intro w _ hw
      simp only [Function.comp, decide_eq_true_eq] at hw ⊢
      intro hcon
      apply hw
      rw [List.getD_eq_getElem?_getD, ← List.get?_eq_getElem?, zeroMask_get?]
      cases hwg : w.get? p with
      | none => rfl
      | some x =>
        have hx : x = 0 := by
          rw [List.getD_eq_getElem?_getD, ← List.get?_eq_getElem?, hwg] at hcon
          exact hcon
        subst hx
        cases hsg : (early.map (fun y => decide ((0 : α) < y))).get? p with
        | none => rfl
        | some b => cases b <;> simp
    have hheadf : (decide (early.getD p 0 ≠ 0)) = false := by
      simp only [ne_eq, he, not_true_eq_false]
      rfl
    rw [hheadf]
    simpa using le_trans hmono hc

/-! ### Theorems: the `lsm` state machine (claims C1 and C2) -/

theorem lsmStep_pos {α : Type} [LinearOrderedField α]
    (paths intr : List (List α)) (strike : α)
    (regress : List α → List α → OlsFit α) (n : Nat)
    (st : List (List α) × List α × List (Option (OlsFit α))) (i : Nat)
    (h : (lsmInMoney (α := α) intr i).any id = true) :
    lsmStep paths intr strike regress n st i =
      ((add_cash_flows st.1 (lsmEarly paths intr strike regress st.2.1 n i)).1,
        (add_cash_flows st.1 (lsmEarly paths intr strike regress st.2.1 n i)).2,
        st.2.2 ++ [some (lsmFit paths intr strike regress st.2.1 i)]) := by
  simp only [lsmStep, if_pos h]

theorem lsmStep_neg {α : Type} [LinearOrderedField α]
    (paths intr : List (List α)) (strike : α)
    (regress : List α → List α → OlsFit α) (n : Nat)
    (st : List (List α) × List α × List (Option (OlsFit α))) (i : Nat)
    (h : ¬ (lsmInMoney (α := α) intr i).any id = true) :
    lsmStep paths intr strike regress n st i =
      ((add_cash_flows st.1 (List.replicate n 0)).1,
        (add_cash_flows st.1 (List.replicate n 0)).2,
        st.2.2 ++ [none]) := by
  simp only [lsmStep, if_neg h]

theorem lsmEarly_length {α : Type} [LinearOrderedField α]
    (paths intr : List (List α)) (strike : α)
    (regress : List α → List α → OlsFit α) (rz : List α) (n i : Nat) :
    (lsmEarly paths intr strike regress rz n i).length = n := by
  unfold lsmEarly
  rw [scatterFrom_length]
  simp

/-- Any nonzero entry of the early-exercise vector is the (strictly
positive) current intrinsic value of an in-the-money path. -/
theorem lsmEarly_pos {α : Type} [LinearOrderedField α]
    (paths intr : List (List α)) (strike : α)
    (regress : List α → List α → OlsFit α) (rz : List α) (n i p : Nat)
    (v : α) (hvg : (lsmEarly paths intr strike regress rz n i).get? p = some v)
    (hvne : v ≠ 0) :
    0 < v ∧ p ∈ lsmImprovements paths intr strike regress rz i ∧
      (lsmCiv intr i).get? p = some v := by
  unfold lsmEarly at hvg
  rw [scatterFrom_get?] at hvg
  have hrep : (List.replicate n (0 : α)).get? p = some 0 ∨
      (List.replicate n (0 : α)).get? p = none := by
    by_cases hp : p < n
    · left
      rw [List.get?_eq_getElem?, List.getElem?_replicate, if_pos hp]
    · right
      rw [List.get?_eq_getElem?, List.getElem?_eq_none (by simpa using hp)]
  rcases hrep with hrep | hrep
  · rw [hrep] at hvg
    simp only [Option.map_some'] at hvg
    have hv : v = if p ∈ lsmImprovements paths intr strike regress rz i
        then (lsmCiv intr i).getD p 0 else 0 := (Option.some.inj hvg).symm
    by_cases hmem : p ∈ lsmImprovements paths intr strike regress rz i
    · rw [if_pos hmem] at hv
      -- p is an in-the-money position, so civ[p] > 0
      have hpidx : p ∈ maskIdx (lsmInMoney (α := α) intr i) := by
        obtain ⟨r, h1, h2⟩ := mem_selectMask_iff.mp hmem
        exact List.get?_mem h1
      have hmask := mem_maskIdx.mp hpidx
      unfold lsmInMoney at hmask
      rw [List.get?_map] at hmask
      cases hciv : (lsmCiv intr i).get? p with
      | none => rw [hciv] at hmask; exact absurd hmask (by simp)
      | some cv =>
        rw [hciv] at hmask
        have hcvpos : 0 < cv := by
          have := Option.some.inj hmask
          simpa using this
        have hgd : (lsmCiv intr i).getD p 0 = cv := by
          rw [List.getD_eq_getElem?_getD, ← List.get?_eq_getElem?, hciv]
          rfl
        rw [hgd] at hv
        exact ⟨by rw [hv]; exact hcvpos, hmem, by rw [hv]⟩

    · rw [if_neg hmem] at hv
      exact absurd hv hvne
  · rw [hrep] at hvg
    exact absurd hvg (by simp)

theorem add_cash_flows_shape {α : Type} [LinearOrderedField α]
    (cfs : List (List α)) (early : List α) (n : Nat) (hn : early.length = n)
    (hcfs : ∀ v ∈ cfs, v.length = n) :
    (∀ v ∈ (add_cash_flows cfs early).1, v.length = n) ∧
      (add_cash_flows cfs early).2.length = n := by
  constructor
  · rw [add_cash_flows_fst]
    intro v hv
    rcases List.mem_cons.mp hv with rfl | hv
    · exact hn
    · obtain ⟨w, hw, rfl⟩ := List.mem_map.mp hv
      rw [zeroMask_length, hcfs w hw]
      simp [hn]
  · exact (add_cash_flows_realized cfs early n hn hcfs).1

/-- One `lsm` step preserves the rectangular shape and reestablishes the
realized-sum invariant. -/
theorem lsmStep_invariant {α : Type} [LinearOrderedField α]
    (paths intr : List (List α)) (strike : α)
    (regress : List α → List α → OlsFit α) (n : Nat)
    (st : List (List α) × List α × List (Option (OlsFit α))) (i : Nat)
    (hcf : ∀ v ∈ st.1, v.length = n) (hrz : st.2.1.length = n) :
    (∀ v ∈ (lsmStep paths intr strike regress n st i).1, v.length = n) ∧
      (lsmStep paths intr strike regress n st i).2.1.length = n ∧
      (∀ p : Nat, p < n →
        (lsmStep paths intr strike regress n st i).2.1.getD p 0 =
          (((lsmStep paths intr strike regress n st i).1).map
            (fun v => v.getD p 0)).sum) := by
  by_cases h : (lsmInMoney (α := α) intr i).any id = true
  · rw [lsmStep_pos paths intr strike regress n st i h]
    have hel := lsmEarly_length paths intr strike regress st.2.1 n i
    obtain ⟨h1, h2⟩ := add_cash_flows_shape st.1 _ n hel hcf
    exact ⟨h1, h2, (add_cash_flows_realized st.1 _ n hel hcf).2⟩
  · rw [lsmStep_neg paths intr strike regress n st i h]
    have hel : (List.replicate n (0 : α)).length = n := by simp
    obtain ⟨h1, h2⟩ := add_cash_flows_shape st.1 _ n hel hcf
    exact ⟨h1, h2, (add_cash_flows_realized st.1 _ n hel hcf).2⟩

theorem lsmStatesAfter_succ {α : Type} [LinearOrderedField α]
    (paths : List (List α)) (payoff_fun : List (List α) → List (List α))
    (regress_fun : List α → List α → OlsFit α) (strike : α) (k : Nat) :
    lsmStatesAfter paths payoff_fun regress_fun strike (k + 1) =
      lsmStep paths (payoff_fun paths) strike regress_fun
        ((paths.headD []).length)
        (lsmStatesAfter paths payoff_fun regress_fun strike k) (2 + k) := by
  simp only [lsmStatesAfter]
  rw [List.range'_1_concat, List.foldl_append]
  rfl

/-- One `lsm` step keeps at most one nonzero cash flow per path. -/
theorem lsmStep_countP {α : Type} [LinearOrderedField α]
    (paths intr : List (List α)) (strike : α)
    (regress : List α → List α → OlsFit α) (n : Nat)
    (st : List (List α) × List α × List (Option (OlsFit α))) (i : Nat)
    (p : Nat)
    (hc : st.1.countP (fun vec => decide (vec.getD p 0 ≠ 0)) ≤ 1) :
    (lsmStep paths intr strike regress n st i).1.countP
      (fun vec => decide (vec.getD p 0 ≠ 0)) ≤ 1 := by
  by_cases h : (lsmInMoney (α := α) intr i).any id = true
  · rw [lsmStep_pos paths intr strike regress n st i h]
    refine add_cash_flows_countP st.1 _ p ?_ hc
    intro v hvg hvne
    exact (lsmEarly_pos paths intr strike regress st.2.1 n i p v hvg hvne).1
  · rw [lsmStep_neg paths intr strike regress n st i h]
    refine add_cash_flows_countP st.1 _ p ?_ hc
    intro v hvg hvne
    exfalso
    apply hvne
    have hp : p < n := by
      by_contra hp
      rw [List.get?_eq_getElem?, List.getElem?_eq_none (by simpa using hp)] at hvg
      exact absurd hvg (by simp)
    rw [List.get?_eq_getElem?, List.getElem?_replicate, if_pos hp] at hvg
    exact (Option.some.inj hvg).symm

theorem lsmInMoney_any {α : Type} [LinearOrderedField α]
    (intr : List (List α)) (i : Nat) :
    ((lsmInMoney (α := α) intr i).any id = true) ↔
      ∃ x ∈ lsmCiv intr i, 0 < x := by
  unfold lsmInMoney
  simp [List.any_eq_true]

theorem get?_zipWith_some {α β γ : Type} {f : α → β → γ} {a : List α}
    {b : List β} {r : Nat} {x : α} {y : β}
    (ha : a.get? r = some x) (hb : b.get? r = some y) :
    (List.zipWith f a b).get? r = some (f x y) := by
  rw [List.get?_eq_getElem?, List.getElem?_zipWith]
  rw [List.get?_eq_getElem?] at ha hb
  rw [ha, hb]

theorem get?_of_getD {α : Type} {l : List α} {r : Nat} {d : α}
    (h : r < l.length) : l.get? r = some (l.getD r d) := by
  rw [List.getD_eq_getElem _ _ h, List.get?_eq_getElem?]
  exact List.getElem?_eq_getElem h

/-- The shape and realized-sum invariant holds at every state of the sweep. -/
theorem lsmStates_invariant {α : Type} [LinearOrderedField α]
    (paths : List (List α)) (payoff_fun : List (List α) → List (List α))
    (regress_fun : List α → List α → OlsFit α) (strike : α) (n : Nat)
    (hn0 : (paths.headD []).length = n)
    (hirect : ∀ row ∈ payoff_fun paths, row.length = n)
    (hine : payoff_fun paths ≠ []) :
    ∀ k : Nat,
      (∀ v ∈ (lsmStatesAfter paths payoff_fun regress_fun strike k).1,
        v.length = n) ∧
      (lsmStatesAfter paths payoff_fun regress_fun strike k).2.1.length = n ∧
      (∀ p : Nat, p < n →
        (lsmStatesAfter paths payoff_fun regress_fun strike k).2.1.getD p 0 =
          (((lsmStatesAfter paths payoff_fun regress_fun strike k).1).map
            (fun v => v.getD p 0)).sum) := by
  intro k
  induction k with
  | zero =>
    have hlen0 : 0 < (payoff_fun paths).length := List.length_pos.mpr hine
    have hr0mem : (payoff_fun paths).getD ((payoff_fun paths).length - 1) [] ∈
        payoff_fun paths := by
      rw [List.getD_eq_getElem _ _ (by omega)]
      exact List.getElem_mem _
    have hr0 : ((payoff_fun paths).getD ((payoff_fun paths).length - 1) []).length = n :=
      hirect _ hr0mem
    have h1 : (lsmStatesAfter paths payoff_fun regress_fun strike 0).1 =
        [(payoff_fun paths).getD ((payoff_fun paths).length - 1) []] := rfl
    have h2 : (lsmStatesAfter paths payoff_fun regress_fun strike 0).2.1 =
        (payoff_fun paths).getD ((payoff_fun paths).length - 1) [] := rfl
    refine ⟨?_, by rw [h2]; exact hr0, ?_⟩
    · intro v hv
      rw [h1, List.mem_singleton] at hv
      rw [hv]
      exact hr0
    · intro p hp
      rw [h1, h2]
      simp
  | succ k ih =>
    rw [lsmStatesAfter_succ, hn0]
    exact lsmStep_invariant paths (payoff_fun paths) strike regress_fun n _
      (2 + k) ih.1 ih.2.1

/-- C2: at each backward step (`k`-th loop iteration, current time row
`steps − (2 + k)`): the regressand is the raw undiscounted per-path sum of
the stored cash flows (conjunct 1); when some path is in the money the OLS
fit of realized-cash-flow ÷ strike against current-price ÷ strike over the
in-the-money subset is appended and a path at in-the-money rank `r`
receives its intrinsic value iff its fitted value rescaled by strike is
strictly below that intrinsic value, other paths receiving zero (conjunct
2); when no path is in the money, a `none` placeholder is appended and no
path exercises (conjunct 3). -/
theorem c2_lsm_backward_step {α : Type} [LinearOrderedField α]
    (paths : List (List α)) (payoff_fun : List (List α) → List (List α))
    (regress_fun : List α → List α → OlsFit α) (strike : α) (n k : Nat)
    (civ prow : List α) (inIdx : List Nat) (X Y : List α)
    (hrect : ∀ row ∈ paths, row.length = n)
    (hirect : ∀ row ∈ payoff_fun paths, row.length = n)
    (hilen : (payoff_fun paths).length = paths.length)
    (hfitlen : ∀ x y, (regress_fun x y).fittedvalues.length = x.length)
    (hk : k < paths.length - 2)
    (hciv : civ = (payoff_fun paths).getD (paths.length - (2 + k)) [])
    (hprow : prow = paths.getD (paths.length - (2 + k)) [])
    (hinIdx : inIdx = inMoneyPositions civ)
    (hX : X = (selectInMoney civ prow).map (fun x => x / strike))
    (hY : Y = (selectInMoney civ
        ((lsmStatesAfter paths payoff_fun regress_fun strike k).2.1)).map
      (fun x => x / strike)) :
    (∀ p : Nat, p < n →
      (lsmStatesAfter paths payoff_fun regress_fun strike k).2.1.getD p 0 =
        (((lsmStatesAfter paths payoff_fun regress_fun strike k).1).map
          (fun vec => vec.getD p 0)).sum) ∧
    ((∃ x ∈ civ, 0 < x) →
      (lsmStatesAfter paths payoff_fun regress_fun strike (k + 1)).2.2 =
        (lsmStatesAfter paths payoff_fun regress_fun strike k).2.2 ++
          [some (regress_fun X Y)] ∧
      (∀ r : Nat, r < inIdx.length →
        ((lsmStatesAfter paths payoff_fun regress_fun strike (k + 1)).1.headD
            []).getD (inIdx.getD r 0) 0 =
          if (regress_fun X Y).fittedvalues.getD r 0 * strike <
              civ.getD (inIdx.getD r 0) 0
          then civ.getD (inIdx.getD r 0) 0
          else 0) ∧
      (∀ p : Nat, p ∉ inIdx →
        ((lsmStatesAfter paths payoff_fun regress_fun strike (k + 1)).1.headD
          []).getD p 0 = 0)) ∧
    ((∀ x ∈ civ, ¬ (0 < x)) →
      (lsmStatesAfter paths payoff_fun regress_fun strike (k + 1)).2.2 =
        (lsmStatesAfter paths payoff_fun regress_fun strike k).2.2 ++ [none] ∧
      (lsmStatesAfter paths payoff_fun regress_fun strike (k + 1)).1.headD [] =
        List.replicate n 0) := by
  have hsteps3 : 3 ≤ paths.length := by omega
  have hne : paths ≠ [] := by
    intro h
    rw [h] at hsteps3
    simp at hsteps3
  have hn0 : (paths.headD []).length = n := by
    rcases paths with _ | ⟨r, rest⟩
    · exact absurd rfl hne
    · exact hrect r (by simp)
  have hine : payoff_fun paths ≠ [] := by
    intro h
    rw [h] at hilen
    simp at hilen
    omega
  obtain ⟨hcf, hrz, hsum⟩ :=
    lsmStates_invariant paths payoff_fun regress_fun strike n hn0 hirect hine k
  have hidxlt : paths.length - (2 + k) < paths.length := by omega
  have hcivmem : civ ∈ payoff_fun paths := by
    rw [hciv, List.getD_eq_getElem _ _ (by rw [hilen]; omega)]
    exact List.getElem_mem _
  have hcivlen : civ.length = n := hirect _ hcivmem
  have hprowmem : prow ∈ paths := by
    rw [hprow, List.getD_eq_getElem _ _ hidxlt]
    exact List.getElem_mem _
  have hprowlen : prow.length = n := hrect _ hprowmem
  have hcivcode : lsmCiv (payoff_fun paths) (2 + k) = civ := by
    rw [hciv]
    unfold lsmCiv
    rw [hilen]
  have hmaskcode : lsmInMoney (α := α) (payoff_fun paths) (2 + k) =
      civ.map (fun x => decide ((0 : α) < x)) := by
    unfold lsmInMoney
    rw [hcivcode]
  have hmasklen : (civ.map (fun x => decide ((0 : α) < x))).length = n := by
    simpa using hcivlen
  have hinIdxcode : maskIdx (lsmInMoney (α := α) (payoff_fun paths) (2 + k)) =
      inIdx := by
    rw [hmaskcode, maskIdx_map_lt, hinIdx]
  have hfitcode : lsmFit paths (payoff_fun paths) strike regress_fun
      ((lsmStatesAfter paths payoff_fun regress_fun strike k).2.1) (2 + k) =
      regress_fun X Y := by
    unfold lsmFit
    rw [hmaskcode, ← hprow]
    rw [selectMask_map_lt prow civ (by rw [hprowlen, hcivlen])]
    rw [selectMask_map_lt _ civ (by rw [hrz, hcivlen])]
    rw [← hX, ← hY]
  have hsucc := lsmStatesAfter_succ paths payoff_fun regress_fun strike k
  rw [hn0] at hsucc
  refine ⟨hsum, ?_, ?_⟩
  · -- some path in the money
    intro hex
    have hany : (lsmInMoney (α := α) (payoff_fun paths) (2 + k)).any id = true := by
      rw [lsmInMoney_any, hcivcode]
      exact hex
    rw [lsmStep_pos paths (payoff_fun paths) strike regress_fun n _ (2 + k) hany]
      at hsucc
    have hfits : (lsmStatesAfter paths payoff_fun regress_fun strike (k + 1)).2.2 =
        (lsmStatesAfter paths payoff_fun regress_fun strike k).2.2 ++
          [some (regress_fun X Y)] := by
      rw [hsucc, ← hfitcode]
    have hhead : (lsmStatesAfter paths payoff_fun regress_fun strike (k + 1)).1.headD [] =
        lsmEarly paths (payoff_fun paths) strike regress_fun
          ((lsmStatesAfter paths payoff_fun regress_fun strike k).2.1) n (2 + k) := by
      rw [hsucc, add_cash_flows_fst]
      rfl
    -- characterize the early vector
    have himpcode : lsmImprovements paths (payoff_fun paths) strike regress_fun
        ((lsmStatesAfter paths payoff_fun regress_fun strike k).2.1) (2 + k) =
        selectMask inIdx
          (List.zipWith (fun fv c => decide (fv * strike < c))
            (regress_fun X Y).fittedvalues
            (inIdx.map (fun p => civ.getD p 0))) := by
      unfold lsmImprovements
      rw [hinIdxcode, hfitcode, hcivcode, hmaskcode]
      rw [selectMask_eq_map_getD 0 civ _ (by rw [hcivlen, hmasklen]),
        maskIdx_map_lt, ← hinIdx]
    have hfittedlen : (regress_fun X Y).fittedvalues.length = inIdx.length := by
      rw [hfitlen X Y, hX, List.length_map]
      rw [← selectMask_map_lt prow civ (by rw [hprowlen, hcivlen])]
      rw [selectMask_length prow _ (by rw [hprowlen, hmasklen]),
        maskIdx_map_lt, hinIdx]
    have hEarly : lsmEarly paths (payoff_fun paths) strike regress_fun
        ((lsmStatesAfter paths payoff_fun regress_fun strike k).2.1) n (2 + k) =
        scatterFrom (List.replicate n 0) civ
          (selectMask inIdx
            (List.zipWith (fun fv c => decide (fv * strike < c))
              (regress_fun X Y).fittedvalues
              (inIdx.map (fun p => civ.getD p 0)))) := by
      unfold lsmEarly
      rw [hcivcode, himpcode]
    refine ⟨hfits, ?_, ?_⟩
    · -- rank-wise exercise rule
      intro r hr
      have hrp : inIdx.get? r = some (inIdx.getD r 0) := get?_of_getD hr
      have hpmem : inIdx.getD r 0 ∈ inIdx := List.get?_mem hrp
      obtain ⟨cv, hcvg, hcvpos⟩ :=
        mem_inMoneyPositions.mp (by rw [← hinIdx]; exact hpmem)
      have hplt : inIdx.getD r 0 < n := by
        have : inIdx.getD r 0 < civ.length := by
          by_contra hcon
          rw [List.get?_eq_getElem?, List.getElem?_eq_none (by omega)] at hcvg
          exact absurd hcvg (by simp)
        omega
      have hselciv : (inIdx.map (fun p => civ.getD p 0)).get? r =
          some (civ.getD (inIdx.getD r 0) 0) := by
        rw [List.get?_map, hrp]
        rfl
      have hfvg : (regress_fun X Y).fittedvalues.get? r =
          some ((regress_fun X Y).fittedvalues.getD r 0) :=
        get?_of_getD (by omega)
      have hexg : (List.zipWith (fun fv c => decide (fv * strike < c))
          (regress_fun X Y).fittedvalues
          (inIdx.map (fun p => civ.getD p 0))).get? r =
          some (decide ((regress_fun X Y).fittedvalues.getD r 0 * strike <
            civ.getD (inIdx.getD r 0) 0)) :=
        get?_zipWith_some hfvg hselciv
      have hmemiff : inIdx.getD r 0 ∈ selectMask inIdx
          (List.zipWith (fun fv c => decide (fv * strike < c))
            (regress_fun X Y).fittedvalues
            (inIdx.map (fun p => civ.getD p 0))) ↔
          ((regress_fun X Y).fittedvalues.getD r 0 * strike <
            civ.getD (inIdx.getD r 0) 0) := by
        constructor
        · intro hmem
          obtain ⟨r', h1, h2⟩ := mem_selectMask_iff.mp hmem
          have hr'lt : r' < inIdx.length := by
            by_contra hcon
            rw [List.get?_eq_getElem?, List.getElem?_eq_none (by omega)] at h1
            exact absurd h1 (by simp)
          have hreq : r' = r :=
            List.get?_inj hr'lt (by rw [hinIdx]; exact inMoneyPositions_nodup civ)
              (by rw [h1, hrp])
          subst hreq
          rw [hexg] at h2
          have := Option.some.inj h2
          exact of_decide_eq_true this
        · intro hlt
          exact mem_selectMask_iff.mpr
            ⟨r, hrp, by rw [hexg]; exact congrArg some (decide_eq_true hlt)⟩
      rw [hhead, hEarly]
      have hsc := scatterFrom_get? (List.replicate n (0 : α)) civ
        (selectMask inIdx
          (List.zipWith (fun fv c => decide (fv * strike < c))
            (regress_fun X Y).fittedvalues
            (inIdx.map (fun p => civ.getD p 0)))) (inIdx.getD r 0)
      simp only [List.get?_eq_getElem?] at hsc
      rw [List.getElem?_replicate, if_pos hplt] at hsc
      simp only [Option.map_some'] at hsc
      rw [List.getD_eq_getElem?_getD, hsc]
      by_cases hcase : (regress_fun X Y).fittedvalues.getD r 0 * strike <
          civ.getD (inIdx.getD r 0) 0
      · rw [if_pos (hmemiff.mpr hcase), if_pos hcase]
        rfl
      · rw [if_neg (fun hmem => hcase (hmemiff.mp hmem)), if_neg hcase]
        rfl
    · -- paths out of the money receive zero
      intro p hpnot
      rw [hhead, hEarly]
      by_cases hp : p < n
      · have hsc := scatterFrom_get? (List.replicate n (0 : α)) civ
          (selectMask inIdx
            (List.zipWith (fun fv c => decide (fv * strike < c))
              (regress_fun X Y).fittedvalues
              (inIdx.map (fun p => civ.getD p 0)))) p
        simp only [List.get?_eq_getElem?] at hsc
        rw [List.getElem?_replicate, if_pos hp] at hsc
        simp only [Option.map_some'] at hsc
        rw [List.getD_eq_getElem?_getD, hsc]
        have hnotmem : p ∉ selectMask inIdx
            (List.zipWith (fun fv c => decide (fv * strike < c))
              (regress_fun X Y).fittedvalues
              (inIdx.map (fun p => civ.getD p 0))) := by
          intro hmem
          obtain ⟨r', h1, _⟩ := mem_selectMask_iff.mp hmem
          exact hpnot (List.get?_mem h1)
        rw [if_neg hnotmem]
        rfl
      · rw [List.getD_eq_getElem?_getD, List.getElem?_eq_none
          (by rw [scatterFrom_length]; simpa using hp)]
        rfl
  · -- no path in the money
    intro hnone
    have hany : ¬ (lsmInMoney (α := α) (payoff_fun paths) (2 + k)).any id = true := by
      rw [lsmInMoney_any, hcivcode]
      rintro ⟨x, hx1, hx2⟩
      exact hnone x hx1 hx2
    rw [lsmStep_neg paths (payoff_fun paths) strike regress_fun n _ (2 + k) hany]
      at hsucc
    constructor
    · rw [hsucc]
    · rw [hsucc, add_cash_flows_fst]
      rfl

/-- C2 witness: the theorem applied to the 3-step, 1-path matrix
`[[1],[1],[1]]` over `ℚ` with the identity payoff, the regression returning
its regressor as fitted values, strike 1 and `k = 0`. -/
theorem c2_lsm_backward_step_witness :
    ((∀ row ∈ ([[1], [1], [1]] : List (List ℚ)), row.length = 1) ∧
      (∀ row ∈ (fun m => m) ([[1], [1], [1]] : List (List ℚ)), row.length = 1) ∧
      ((fun m => m) ([[1], [1], [1]] : List (List ℚ))).length =
        ([[1], [1], [1]] : List (List ℚ)).length ∧
      (∀ x y : List ℚ, ((fun x (_ : List ℚ) => OlsFit.mk x) x y).fittedvalues.length =
        x.length) ∧
      (0 : Nat) < ([[1], [1], [1]] : List (List ℚ)).length - 2 ∧
      ([1] : List ℚ) =
        ((fun m => m) ([[1], [1], [1]] : List (List ℚ))).getD
          (([[1], [1], [1]] : List (List ℚ)).length - (2 + 0)) [] ∧
      ([1] : List ℚ) = ([[1], [1], [1]] : List (List ℚ)).getD
        (([[1], [1], [1]] : List (List ℚ)).length - (2 + 0)) [] ∧
      ([0] : List Nat) = inMoneyPositions ([1] : List ℚ) ∧
      ([1] : List ℚ) = (selectInMoney ([1] : List ℚ) [1]).map (fun x => x / 1) ∧
      ([1] : List ℚ) = (selectInMoney ([1] : List ℚ)
          ((lsmStatesAfter [[1], [1], [1]] (fun m => m)
            (fun x (_ : List ℚ) => OlsFit.mk x) 1 0).2.1)).map (fun x => x / 1)) ∧
    ((∀ p : Nat, p < 1 →
        (lsmStatesAfter [[1], [1], [1]] (fun m => m)
          (fun x (_ : List ℚ) => OlsFit.mk x) 1 0).2.1.getD p 0 =
          (((lsmStatesAfter [[1], [1], [1]] (fun m => m)
            (fun x (_ : List ℚ) => OlsFit.mk x) 1 0).1).map
            (fun vec => vec.getD p 0)).sum) ∧
      ((∃ x ∈ ([1] : List ℚ), 0 < x) →
        (lsmStatesAfter [[1], [1], [1]] (fun m => m)
          (fun x (_ : List ℚ) => OlsFit.mk x) 1 (0 + 1)).2.2 =
          (lsmStatesAfter [[1], [1], [1]] (fun m => m)
            (fun x (_ : List ℚ) => OlsFit.mk x) 1 0).2.2 ++
            [some (OlsFit.mk [1])] ∧
        (∀ r : Nat, r < ([0] : List Nat).length →
          ((lsmStatesAfter [[1], [1], [1]] (fun m => m)
            (fun x (_ : List ℚ) => OlsFit.mk x) 1 (0 + 1)).1.headD []).getD
              (([0] : List Nat).getD r 0) 0 =
            if (OlsFit.mk ([1] : List ℚ)).fittedvalues.getD r 0 * 1 <
                ([1] : List ℚ).getD (([0] : List Nat).getD r 0) 0
            then ([1] : List ℚ).getD (([0] : List Nat).getD r 0) 0
            else 0) ∧
        (∀ p : Nat, p ∉ ([0] : List Nat) →
          ((lsmStatesAfter [[1], [1], [1]] (fun m => m)
            (fun x (_ : List ℚ) => OlsFit.mk x) 1 (0 + 1)).1.headD []).getD p 0 = 0)) ∧
      ((∀ x ∈ ([1] : List ℚ), ¬ (0 < x)) →
        (lsmStatesAfter [[1], [1], [1]] (fun m => m)
          (fun x (_ : List ℚ) => OlsFit.mk x) 1 (0 + 1)).2.2 =
          (lsmStatesAfter [[1], [1], [1]] (fun m => m)
            (fun x (_ : List ℚ) => OlsFit.mk x) 1 0).2.2 ++ [none] ∧
        (lsmStatesAfter [[1], [1], [1]] (fun m => m)
          (fun x (_ : List ℚ) => OlsFit.mk x) 1 (0 + 1)).1.headD [] =
          List.replicate 1 0)) :=
  ⟨⟨by decide, by decide, by decide, fun x y => rfl, by decide, by decide, by decide,
      by decide,
      by
        rw [show selectInMoney ([1] : List ℚ) [1] = [1] from (by decide)]
        norm_num,
      by
        rw [show (lsmStatesAfter [[1], [1], [1]] (fun m => m)
            (fun x (_ : List ℚ) => OlsFit.mk x) 1 0).2.1 = [1] from (by decide)]
        rw [show selectInMoney ([1] : List ℚ) [1] = [1] from (by decide)]
        norm_num⟩,
    c2_lsm_backward_step [[1], [1], [1]] (fun m => m)
      (fun x (_ : List ℚ) => OlsFit.mk x) 1 1 0 [1] [1] [0] [1] [1]
      (by decide) (by decide) (by decide) (fun x y => rfl) (by decide)
      (by decide) (by decide) (by decide)
      (by
        rw [show selectInMoney ([1] : List ℚ) [1] = [1] from (by decide)]
        norm_num)
      (by
        rw [show (lsmStatesAfter [[1], [1], [1]] (fun m => m)
            (fun x (_ : List ℚ) => OlsFit.mk x) 1 0).2.1 = [1] from (by decide)]
        rw [show selectInMoney ([1] : List ℚ) [1] = [1] from (by decide)]
        norm_num)⟩

/-- C1: after `lsm` completes, every path has at most one nonzero entry
across the returned time-indexed cash-flow vectors, and the same holds for
the stored collection after every backward step. -/
theorem c1_one_exercise (paths : List (List ℝ))
    (payoff_fun : List (List ℝ) → List (List ℝ))
    (regress_fun : List ℝ → List ℝ → OlsFit ℝ)
    (discount_rate T strike : ℝ) (p : Nat) :
    ((lsm paths payoff_fun regress_fun discount_rate T strike).2.1.countP
      (fun vec => decide (vec.getD p 0 ≠ 0))) ≤ 1 ∧
    ∀ k : Nat,
      ((lsmStatesAfter paths payoff_fun regress_fun strike k).1.countP
        (fun vec => decide (vec.getD p 0 ≠ 0))) ≤ 1 := by
  have hall : ∀ k : Nat,
      ((lsmStatesAfter paths payoff_fun regress_fun strike k).1.countP
        (fun vec => decide (vec.getD p 0 ≠ 0))) ≤ 1 := by
    intro k
    induction k with
    | zero =>
      have h1 : (lsmStatesAfter paths payoff_fun regress_fun strike 0).1 =
          [(payoff_fun paths).getD ((payoff_fun paths).length - 1) []] := rfl
      rw [h1]
      exact le_trans (List.countP_le_length _) (by simp)
    | succ k ih =>
      rw [lsmStatesAfter_succ]
      exact lsmStep_countP _ _ _ _ _ _ _ p ih
  refine ⟨?_, hall⟩
  have hlsm : (lsm paths payoff_fun regress_fun discount_rate T strike).2.1 =
      (lsmStatesAfter paths payoff_fun regress_fun strike
        (paths.length - 2)).1 := rfl
  rw [hlsm]
  exact hall (paths.length - 2)

/-! ### Theorems: the store-passing `lsm` and the frame claim C10 -/

theorem StoreExtends_refl {α : Type} (s : Store α) : StoreExtends s s :=
  ⟨le_rfl, fun _ _ => rfl⟩

theorem StoreExtends_trans {α : Type} {s0 s1 s2 : Store α}
    (h01 : StoreExtends s0 s1) (h12 : StoreExtends s1 s2) :
    StoreExtends s0 s2 :=
  ⟨le_trans h01.1 h12.1,
    fun j hj => (h12.2 j (lt_of_lt_of_le hj h01.1)).trans (h01.2 j hj)⟩

theorem alloc_extends {α : Type} (s : Store α) (v : List α) :
    StoreExtends s (alloc s v).1 := by
  refine ⟨by simp [alloc], fun j hj => ?_⟩
  simp [alloc, List.getElem?_append_left hj]

theorem writeV_extends {α : Type} {s0 s : Store α} {r : Nat} (v : List α)
    (hpre : StoreExtends s0 s) (hr : s0.length ≤ r) :
    StoreExtends s0 (writeV s r v) := by
  refine ⟨by simpa [writeV] using hpre.1, fun j hj => ?_⟩
  rw [← hpre.2 j hj, writeV, List.get?_set_ne]
  omega

theorem acf_fold_extends {α : Type} [LinearOrderedField α] {s0 : Store α}
    (m : List Bool) :
    ∀ (cfs : List Nat) (st : Store α × List α),
    StoreExtends s0 st.1 → (∀ r ∈ cfs, s0.length ≤ r) →
    StoreExtends s0 (cfs.foldl (acfStep m) st).1 := by
  intro cfs
  induction cfs with
  | nil => exact fun st h _ => h
  | cons c rest ih =>
    intro st h hr
    rw [List.foldl_cons]
    exact ih _ (writeV_extends _ h (hr c (by simp)))
      (fun r hrm => hr r (by simp [hrm]))

theorem add_cash_flows_s_extends {α : Type} [LinearOrderedField α]
    {s0 s : Store α} {cfs : List Nat} (ecf : Nat)
    (hpre : StoreExtends s0 s) (hcfs : ∀ r ∈ cfs, s0.length ≤ r) :
    StoreExtends s0 (add_cash_flows_s s cfs ecf).1 :=
  acf_fold_extends _ cfs (s, readV s ecf) hpre hcfs

theorem lsmStep_s_inv {α : Type} [LinearOrderedField α] {s0 : Store α}
    (pathRefs intrRefs : List Nat) (strike : α)
    (regress_fun : List α → List α → OlsFit α) (n : Nat)
    (st : Store α × List Nat × List α) (i : Nat)
    (h1 : StoreExtends s0 st.1) (h2 : ∀ r ∈ st.2.1, s0.length ≤ r) :
    StoreExtends s0
        (lsmStep_s pathRefs intrRefs strike regress_fun n st i).1 ∧
      ∀ r ∈ (lsmStep_s pathRefs intrRefs strike regress_fun n st i).2.1,
        s0.length ≤ r := by
  constructor
  · exact add_cash_flows_s_extends _
      (StoreExtends_trans h1 (alloc_extends _ _)) h2
  · intro r hr
    rw [show (lsmStep_s pathRefs intrRefs strike regress_fun n st i).2.1 =
        st.1.length :: st.2.1 from rfl] at hr
    rcases List.mem_cons.mp hr with h | h
    · rw [h]; exact h1.1
    · exact h2 r h

theorem lsm_s_fold_inv {α : Type} [LinearOrderedField α] {s0 : Store α}
    (pathRefs intrRefs : List Nat) (strike : α)
    (regress_fun : List α → List α → OlsFit α) (n : Nat) :
    ∀ (L : List Nat) (st : Store α × List Nat × List α),
    StoreExtends s0 st.1 → (∀ r ∈ st.2.1, s0.length ≤ r) →
    StoreExtends s0 (L.foldl
      (lsmStep_s pathRefs intrRefs strike regress_fun n) st).1 := by
  intro L
  induction L with
  | nil => exact fun st h _ => h
  | cons a rest ih =>
    intro st h hr
    rw [List.foldl_cons]
    have step := lsmStep_s_inv pathRefs intrRefs strike regress_fun n st a
      h hr
    exact ih _ step.1 step.2

theorem fresh_fold_inv {α : Type} (f : α → α) {s0 : Store α} :
    ∀ (refs : List Nat) (st : Store α × List Nat),
    StoreExtends s0 st.1 → (∀ r ∈ st.2, s0.length ≤ r) →
    StoreExtends s0 (refs.foldl (freshStep f) st).1 ∧
      (∀ r ∈ (refs.foldl (freshStep f) st).2, s0.length ≤ r) ∧
      (refs.foldl (freshStep f) st).2.length = st.2.length + refs.length := by
  intro refs
  induction refs with
  | nil => exact fun st h hr => ⟨h, hr, rfl⟩
  | cons a rest ih =>
    intro st h hr
    rw [List.foldl_cons]
    have hstep : StoreExtends s0 (freshStep f st a).1 :=
      StoreExtends_trans h (alloc_extends _ _)
    have hrefs : ∀ r ∈ (freshStep f st a).2, s0.length ≤ r := by
      intro r hrm
      rw [show (freshStep f st a).2 = st.2 ++ [st.1.length] from rfl] at hrm
      rcases List.mem_append.mp hrm with hmm | hmm
      · exact hr r hmm
      · have hrl : r = st.1.length := by simpa using hmm
        rw [hrl]; exact h.1
    refine ⟨(ih _ hstep hrefs).1, (ih _ hstep hrefs).2.1, ?_⟩
    rw [(ih _ hstep hrefs).2.2,
      show (freshStep f st a).2 = st.2 ++ [st.1.length] from rfl]
    simp
    omega

theorem freshPayoff_extends {α : Type} (f : α → α) (s : Store α)
    (refs : List Nat) : StoreExtends s (freshPayoff f s refs).1 :=
  (fresh_fold_inv f refs (s, []) (StoreExtends_refl s) (by simp)).1

theorem freshPayoff_refs {α : Type} (f : α → α) (s : Store α)
    (refs : List Nat) : ∀ r ∈ (freshPayoff f s refs).2, s.length ≤ r :=
  (fresh_fold_inv f refs (s, []) (StoreExtends_refl s) (by simp)).2.1

theorem freshPayoff_len {α : Type} (f : α → α) (s : Store α)
    (refs : List Nat) : (freshPayoff f s refs).2.length = refs.length := by
  have h := (fresh_fold_inv f refs (s, []) (StoreExtends_refl s)
    (by simp)).2.2
  simpa using h

/-- C10 counterexample: `lsm` CAN mutate its input path matrix. With the
identity payoff (`lambda values: values`), `intrinsic_value` *is* `paths`,
so `realized_cash_flows = intrinsic_value[-1, :]` is a view of the last
row of `paths` and `cash_flows[0]` references that very row. On the store
`[[1], [1], [1]]` (three time steps, one path, the path rows at references
0, 1, 2) with a regression always fitting 0, the single backward step
exercises the path and `add_cash_flows` zeroes the referenced row: cell 2
of the final store is `[0]`, although it held `[1]` on entry. -/
theorem c10_counterexample :
    readV (lsm_s ([[1], [1], [1]] : Store ℚ) [0, 1, 2] idPayoff
      (fun _ _ => OlsFit.mk [0]) 1).1 2 = [0] ∧
    readV ([[1], [1], [1]] : Store ℚ) 2 = [1] := by
  constructor
  · norm_num [lsm_s, lsmStep_s, add_cash_flows_s, acfStep, idPayoff, readV,
      writeV, alloc, lsmEarly, lsmImprovements, lsmFit, lsmCiv, lsmInMoney,
      selectMask, maskIdx, scatterFrom, zeroMask, List.range',
      List.foldl, List.getD, List.enum, List.enumFrom, List.zip,
      List.zipWith, List.filter, List.set]
  · rfl

/-- C10 (amended): `lsm` never mutates its input path matrix *provided the
payoff function allocates fresh storage* (as `american_put_payoff` does):
for every starting store, path-row references, elementwise payoff map `f`,
regression and strike, every store cell present on entry — in particular
every row of `paths` — holds its original value after the sweep. The proof
is the frame invariant that every reference the sweep ever writes (the
fresh intrinsic rows and the allocated early-exercise rows) lies beyond
the original store. -/
theorem c10_no_path_mutation {α : Type} [LinearOrderedField α]
    (s0 : Store α) (pathRefs : List Nat) (f : α → α)
    (regress_fun : List α → List α → OlsFit α) (strike : α)
    (j : Nat) (hj : j < s0.length) :
    (lsm_s s0 pathRefs (freshPayoff f) regress_fun strike).1.get? j =
      s0.get? j := by
  cases pathRefs with
  | nil => rfl
  | cons p ps =>
    have hlen : 0 < (freshPayoff f s0 (p :: ps)).2.length := by
      rw [freshPayoff_len]; simp
    set intrRefs := (freshPayoff f s0 (p :: ps)).2 with hir
    have hmem : intrRefs.getD (intrRefs.length - 1) 0 ∈ intrRefs := by
      have hlt : intrRefs.length - 1 < intrRefs.length := by omega
      rw [List.getD_eq_getElem?_getD, List.getElem?_eq_getElem hlt]
      exact List.getElem_mem hlt
    have hrcf : s0.length ≤ intrRefs.getD (intrRefs.length - 1) 0 :=
      freshPayoff_refs f s0 (p :: ps) _ hmem
    have key := lsm_s_fold_inv (p :: ps) intrRefs strike
      regress_fun ((readV s0 ((p :: ps).headD 0)).length)
      (List.range' 2 ((p :: ps).length - 2))
      ((freshPayoff f s0 (p :: ps)).1,
        [intrRefs.getD (intrRefs.length - 1) 0],
        readV (freshPayoff f s0 (p :: ps)).1
          (intrRefs.getD (intrRefs.length - 1) 0))
      (freshPayoff_extends f s0 (p :: ps))
      (by intro r hrm; rw [List.mem_singleton] at hrm; omega)
    exact key.2 j hj

theorem c10_no_path_mutation_witness :
    2 < ([[1], [1], [1]] : Store ℚ).length ∧
      (lsm_s ([[1], [1], [1]] : Store ℚ) [0, 1, 2]
          (freshPayoff (fun x => x)) (fun _ _ => OlsFit.mk [0]) 1).1.get? 2 =
        ([[1], [1], [1]] : Store ℚ).get? 2 :=
  ⟨by decide,
    c10_no_path_mutation [[1], [1], [1]] [0, 1, 2] (fun x => x)
      (fun _ _ => OlsFit.mk [0]) 1 2 (by decide)⟩

end Prycing